import Mathlib

/-!
Verification of the bazos-analysis extraction/resolution engine.

This development gives a shallow embedding, in Lean 4, of the core decision
logic of the repository:

* `ml/mileage_resolver.py` — normalization, disagreement classification and
  resolution of mileage values coming from the ML extractor and the regex
  extractor (`MileageNormalizer.normalize`, `MileageResolver.resolve`);
* `ml/power_resolver.py` — the analogous power resolver (this module is
  referenced by the repository's tests but its source file is absent, so it
  is modelled from the specification, as marked on each definition);
* `ml/context_aware_patterns.py` — the confidence-tiered, exclusion-aware
  regex extraction for years and mileage, including a faithful executable
  model of the concrete Python regular expressions used for the year field,
  and the match deduplication step (`_deduplicate_matches`);
* `ml/production_extractor.py` — field comparison (`_compare_results`),
  final-value decision (`_decide_final_result`), database normalization
  (`DataNormalizer`), queue routing (`_add_to_auto_training`,
  `_add_to_review_queue`) and the `extract` state transition.

Python strings are modelled as `String`/`List Char`, Python `None` as
`Option`, floats (all confidence constants are decimal literals) as `ℚ`,
dicts with fixed keys as structures, and exceptions as `Except`.  Python's
`str.lower()` is modelled on ASCII letters plus the Czech alphabet — the
character sets these patterns and inputs distinguish.  Backtracking
regular-expression matching is modelled by
explicit continuation-passing matchers that explore alternatives in the same
order as CPython's `re` engine (ordered alternation, greedy quantifiers).
-/

/-! ## Basic character and string helpers -/

/-- Python `str.strip()` / `\s` whitespace characters (ASCII range). -/
def isWsChar (c : Char) : Bool :=
  c = ' ' || c = '\t' || c = '\n' || c = '\r' || c = '\x0b' || c = '\x0c'

/-- Uppercase/lowercase pairs of the Czech alphabet beyond ASCII. -/
def czechCasePairs : List (Char × Char) :=
  [('Á', 'á'), ('Č', 'č'), ('Ď', 'ď'), ('É', 'é'), ('Ě', 'ě'),
   ('Í', 'í'), ('Ň', 'ň'), ('Ó', 'ó'), ('Ř', 'ř'), ('Š', 'š'),
   ('Ť', 'ť'), ('Ú', 'ú'), ('Ů', 'ů'), ('Ý', 'ý'), ('Ž', 'ž')]

/-- The fragment of Python `str.lower()` exercised here: ASCII letters plus
the Czech alphabet. -/
def lowerChar (c : Char) : Char :=
  match czechCasePairs.find? (fun p => p.1 = c) with
  | some p => p.2
  | none => c.toLower

def lowerStr (cs : List Char) : List Char := cs.map lowerChar

/-- Python `str.strip()`: drop leading and trailing whitespace. -/
def stripChars (cs : List Char) : List Char :=
  ((cs.dropWhile isWsChar).reverse.dropWhile isWsChar).reverse

/-- Numeric value of a digit run (most significant first). -/
def digitsToNat (ds : List Char) : Nat :=
  ds.foldl (fun n c => n * 10 + (c.toNat - '0'.toNat)) 0

/-- `re.sub(r'(\d)\s+(\d)', r'\1\2', s)`: scan left to right; a match
consumes a digit, a nonempty whitespace run and a second digit, emits the two
digits, and scanning resumes after the match (exactly CPython's `re.sub`). -/
def squeezeDigitSpaces (cs : List Char) (fuel : Nat) : List Char :=
  match fuel, cs with
  | 0, rest => rest
  | _, [] => []
  | fuel + 1, c :: rest =>
    if c.isDigit then
      let ws := rest.takeWhile isWsChar
      match ws, rest.drop ws.length with
      | _ :: _, d :: tail =>
        if d.isDigit then c :: d :: squeezeDigitSpaces tail fuel
        else c :: squeezeDigitSpaces rest fuel
      | _, _ => c :: squeezeDigitSpaces rest fuel
    else c :: squeezeDigitSpaces rest fuel

/-- First maximal digit run in the string, if any (`re.search(r'(\d+)', s)`). -/
def firstDigitRun (cs : List Char) : Option (List Char) :=
  match cs with
  | [] => none
  | c :: rest =>
    if c.isDigit then some (c :: rest.takeWhile Char.isDigit)
    else firstDigitRun rest

/-- Python truthiness of an optional string: `None` and `""` are falsy. -/
def isTruthy : Option String → Bool
  | none => false
  | some s => !s.isEmpty

/-- Python `a or b` on optional strings. -/
def pyOr (a b : Option String) : Option String :=
  if isTruthy a then a else b

/-! ## `ml/mileage_resolver.py`: types -/

/-- `DisagreementType = Literal["NONE", "MINOR_FORMATTING", "MAJOR"]`. -/
inductive DisagreementType where
  | NONE
  | MINOR_FORMATTING
  | MAJOR
deriving DecidableEq, Repr

/-- `ResolutionMethod` literal type of `mileage_resolver.py`. -/
inductive ResolutionMethod where
  | AUTO_NORMALIZED
  | MANUAL
  | ML_PREFERRED
  | REGEX_PREFERRED
deriving DecidableEq, Repr

/-- The `MileageResolution` dataclass (also the shape of the power
resolver's result). -/
structure MileageResolution where
  ml_raw : Option String
  regex_raw : Option String
  normalized_ml : Option String
  normalized_regex : Option String
  disagreement_type : DisagreementType
  resolved_value : Option String
  resolution_method : ResolutionMethod
  confidence : ℚ
deriving DecidableEq, Repr

/-! ## `MileageNormalizer` -/

/-- The `UNITS` table of `MileageNormalizer`. -/
def mileageUnits : List (String × String) :=
  [("km", "km"), ("kilometer", "km"), ("kilometers", "km"),
   ("kilometre", "km"), ("kilometres", "km"),
   ("mi", "mi"), ("mile", "mi"), ("miles", "mi")]

def lookupTable (t : List (String × String)) (u : String) : Option String :=
  (t.find? (fun p => p.1 = u)).map (fun p => p.2)

/-- `re.match(r'(\d+)\s*([a-z]+)', s)`: a leading digit run, optional
whitespace, then a nonempty `[a-z]` run; returns the two groups.  The three
character classes are pairwise disjoint, so greedy matching is exact. -/
def matchNumUnit (cs : List Char) : Option (List Char × List Char) :=
  let num := cs.takeWhile Char.isDigit
  if num.isEmpty then none
  else
    let rest := (cs.drop num.length).dropWhile isWsChar
    let unit := rest.takeWhile (fun c => 'a' ≤ c && c ≤ 'z')
    if unit.isEmpty then none else some (num, unit)

/-- Core of `MileageNormalizer.normalize`, parameterized by the unit table so
that the spec-modelled power normalizer can reuse it.  Strip, lowercase,
squeeze whitespace between digits, extract number and unit, canonicalize the
unit. -/
def normalizeWith (table : List (String × String)) : Option String → Option String
  | none => none
  | some raw =>
    if raw.isEmpty then none
    else
      let cleaned := lowerStr (stripChars raw.data)
      let cleaned := squeezeDigitSpaces cleaned (cleaned.length + 1)
      match matchNumUnit cleaned with
      | none => none
      | some (num, unit) =>
        match lookupTable table (String.mk unit) with
        | none => none
        | some u => some (String.mk num ++ u)

/-- `MileageNormalizer.normalize`. -/
def mileageNormalize (raw : Option String) : Option String :=
  normalizeWith mileageUnits raw

/-- `MileageNormalizer.extract_numeric`: squeeze whitespace between digits
(no strip/lower here, matching the source), then the first digit run. -/
def extractNumeric : Option String → Option Nat
  | none => none
  | some raw =>
    if raw.isEmpty then none
    else
      let cleaned := squeezeDigitSpaces raw.data (raw.data.length + 1)
      (firstDigitRun cleaned).map digitsToNat

/-! ## `MileageResolver` -/

/-- `MileageResolver._classify_disagreement`. -/
def classifyDisagreement (nml nrx : Option String) : DisagreementType :=
  match nml, nrx with
  | none, none => .NONE
  | some a, some b =>
    if a = b then .NONE
    else if extractNumeric (some a) = extractNumeric (some b) then .MINOR_FORMATTING
    else .MAJOR
  | _, _ => .MINOR_FORMATTING

/-- The `{value, method, confidence}` dict returned by
`_resolve_disagreement`. -/
structure ResolutionOutcome where
  value : Option String
  method : ResolutionMethod
  confidence : ℚ
deriving DecidableEq, Repr

/-- `MileageResolver._resolve_disagreement`.  The Python function's trailing
fallback (`confidence 0.50`) is unreachable because the `Literal` type has
exactly the three alternatives matched here. -/
def resolveDisagreement (preferMl : Bool) (mlRaw rxRaw nml nrx : Option String)
    (dt : DisagreementType) : ResolutionOutcome :=
  match dt with
  | .NONE =>
    if nml.isSome then ⟨pyOr mlRaw rxRaw, .AUTO_NORMALIZED, 0.95⟩
    else ⟨none, .AUTO_NORMALIZED, 0⟩
  | .MINOR_FORMATTING =>
    if nml.isSome && nrx.isSome then
      ⟨if preferMl then mlRaw else rxRaw, .AUTO_NORMALIZED, 0.90⟩
    else if nml.isSome then ⟨mlRaw, .ML_PREFERRED, 0.75⟩
    else ⟨rxRaw, .REGEX_PREFERRED, 0.80⟩
  | .MAJOR =>
    if preferMl && nml.isSome then ⟨mlRaw, .ML_PREFERRED, 0.70⟩
    else if !preferMl && nrx.isSome then ⟨rxRaw, .REGEX_PREFERRED, 0.70⟩
    else if nml.isSome then ⟨mlRaw, .ML_PREFERRED, 0.60⟩
    else if nrx.isSome then ⟨rxRaw, .REGEX_PREFERRED, 0.70⟩
    else ⟨none, .AUTO_NORMALIZED, 0⟩

/-- `MileageResolver.resolve` (with `prefer_ml` as the resolver's
configuration flag and `manualOverride` the optional third argument). -/
def mileageResolve (preferMl : Bool) (mlRaw rxRaw manualOverride : Option String) :
    MileageResolution :=
  match manualOverride with
  | some m =>
    { ml_raw := mlRaw, regex_raw := rxRaw,
      normalized_ml := mileageNormalize mlRaw,
      normalized_regex := mileageNormalize rxRaw,
      disagreement_type := .NONE,
      resolved_value := some m,
      resolution_method := .MANUAL,
      confidence := 1 }
  | none =>
    let nml := mileageNormalize mlRaw
    let nrx := mileageNormalize rxRaw
    let dt := classifyDisagreement nml nrx
    let r := resolveDisagreement preferMl mlRaw rxRaw nml nrx dt
    { ml_raw := mlRaw, regex_raw := rxRaw,
      normalized_ml := nml, normalized_regex := nrx,
      disagreement_type := dt,
      resolved_value := r.value,
      resolution_method := r.method,
      confidence := r.confidence }

/-! ## Spec-side definitions for the resolver claims -/

/-- The disagreement table exactly as the specification words it (§4.3
step 3): both `None` → NONE; both present and canonical-equal → NONE; both
present, canonical-unequal but same numeric magnitude → MINOR_FORMATTING;
both present, different numeric magnitude → MAJOR; exactly one present →
MINOR_FORMATTING. -/
def specDisagreementTable (nml nrx : Option String) : DisagreementType :=
  match nml, nrx with
  | none, none => .NONE
  | some a, some b =>
    if a = b then .NONE
    else if extractNumeric (some a) = extractNumeric (some b) then .MINOR_FORMATTING
    else .MAJOR
  | some _, none => .MINOR_FORMATTING
  | none, some _ => .MINOR_FORMATTING

/-! ## `ml/power_resolver.py` (modelled from the spec)

The repository's tests (`tests/test_power_resolver.py`) and
`production_extractor.py` import `ml.power_resolver`, but that source file is
not present in the repository snapshot; the definitions below are therefore
modelled from the specification (§4.2 unit canonicalization for power, §4.3
resolution table), not translated from Python source. -/

/-- Modelled from the spec: the power unit canonicalization table of the
missing `power_resolver.py` — `{kw} → kw`, `{ps, hp, koní, koně, kon} → ps`
(§4.2). -/
def powerUnits : List (String × String) :=
  [("kw", "kw"), ("ps", "ps"), ("hp", "ps"),
   ("koní", "ps"), ("koně", "ps"), ("kon", "ps")]

/-- Modelled from the spec: `PowerNormalizer.normalize` of the missing
`power_resolver.py` — lowercase, strip, collapse digit-group spaces, leading
digit run plus recognized unit token (§4.2), sharing the normalization core
with the mileage normalizer. -/
def powerNormalize (raw : Option String) : Option String :=
  normalizeWith powerUnits raw

/-- Modelled from the spec: resolution by classification for the missing
power resolver, following the §4.3 table verbatim — NONE/both present:
`ml_raw`, AUTO_NORMALIZED, 0.95; NONE/both absent: `None`, 0.0;
MINOR_FORMATTING: 0.90 both present (source picked by `prefer_ml`), 0.75
ML-only (ML_PREFERRED), 0.80 regex-only (REGEX_PREFERRED); MAJOR: preferred
source's raw value at 0.70 when present, else the other source at 0.60. -/
def specResolveOutcome (preferMl : Bool) (mlRaw rxRaw nml nrx : Option String)
    (dt : DisagreementType) : ResolutionOutcome :=
  match dt with
  | .NONE =>
    if nml.isSome then ⟨mlRaw, .AUTO_NORMALIZED, 0.95⟩
    else ⟨none, .AUTO_NORMALIZED, 0⟩
  | .MINOR_FORMATTING =>
    if nml.isSome && nrx.isSome then
      ⟨if preferMl then mlRaw else rxRaw, .AUTO_NORMALIZED, 0.90⟩
    else if nml.isSome then ⟨mlRaw, .ML_PREFERRED, 0.75⟩
    else ⟨rxRaw, .REGEX_PREFERRED, 0.80⟩
  | .MAJOR =>
    if preferMl then
      if nml.isSome then ⟨mlRaw, .ML_PREFERRED, 0.70⟩
      else ⟨rxRaw, .REGEX_PREFERRED, 0.60⟩
    else
      if nrx.isSome then ⟨rxRaw, .REGEX_PREFERRED, 0.70⟩
      else ⟨mlRaw, .ML_PREFERRED, 0.60⟩

/-- Modelled from the spec: `PowerResolver.resolve` / `resolve_power` of the
missing `power_resolver.py` — manual override wins with confidence 1.0,
otherwise normalize both, classify by the §4.3 table, and resolve. -/
def powerResolve (preferMl : Bool) (mlRaw rxRaw manualOverride : Option String) :
    MileageResolution :=
  match manualOverride with
  | some m =>
    { ml_raw := mlRaw, regex_raw := rxRaw,
      normalized_ml := powerNormalize mlRaw,
      normalized_regex := powerNormalize rxRaw,
      disagreement_type := .NONE,
      resolved_value := some m,
      resolution_method := .MANUAL,
      confidence := 1 }
  | none =>
    let nml := powerNormalize mlRaw
    let nrx := powerNormalize rxRaw
    let dt := specDisagreementTable nml nrx
    let r := specResolveOutcome preferMl mlRaw rxRaw nml nrx dt
    { ml_raw := mlRaw, regex_raw := rxRaw,
      normalized_ml := nml, normalized_regex := nrx,
      disagreement_type := dt,
      resolved_value := r.value,
      resolution_method := r.method,
      confidence := r.confidence }

/-! ## `ml/context_aware_patterns.py`: the `Match` dataclass and
`_deduplicate_matches` -/

/-- The `'high' | 'medium' | 'low'` confidence strings. -/
inductive Confidence where
  | high
  | medium
  | low
deriving DecidableEq, Repr

/-- The `Match` dataclass of `context_aware_patterns.py` (`stop` stands for
the Python field `end`, which is a reserved word in Lean). -/
structure RMatch where
  text : String
  value : Nat
  start : Nat
  stop : Nat
  confidence : Confidence
  pattern_type : String
deriving DecidableEq, Repr

/-- `confidence_order = {'high': 3, 'medium': 2, 'low': 1}`. -/
def confidenceOrder : Confidence → Nat
  | .high => 3
  | .medium => 2
  | .low => 1

/-- One step of building the `by_position` dict: append `m` to the bucket of
its start position, creating the bucket at the end on first occurrence
(Python dicts iterate in insertion order). -/
def insertByPosition (groups : List (Nat × List RMatch)) (m : RMatch) :
    List (Nat × List RMatch) :=
  match groups with
  | [] => [(m.start, [m])]
  | (s, g) :: rest =>
    if s = m.start then (s, g ++ [m]) :: rest
    else (s, g) :: insertByPosition rest m

/-- The `by_position` dict of `_deduplicate_matches`, as an insertion-ordered
association list. -/
def groupByPosition (ms : List RMatch) : List (Nat × List RMatch) :=
  ms.foldl insertByPosition []

/-- Python `max(position_matches, key=...)`: left fold keeping the first
element of maximal key (later elements replace only on strictly greater). -/
def bestOf (best : RMatch) : List RMatch → RMatch
  | [] => best
  | x :: rest =>
    bestOf (if confidenceOrder best.confidence < confidenceOrder x.confidence then x else best) rest

/-- Stable insertion into a list sorted by `start` (new element goes after
existing elements with the same or smaller key). -/
def insertSortedByStart (m : RMatch) : List RMatch → List RMatch
  | [] => [m]
  | x :: rest =>
    if x.start ≤ m.start then x :: insertSortedByStart m rest else m :: x :: rest

/-- `sorted(result, key=lambda m: m.start)` (a stable sort). -/
def sortByStart (ms : List RMatch) : List RMatch :=
  ms.foldl (fun acc m => insertSortedByStart m acc) []

/-- `ContextAwarePatterns._deduplicate_matches`: group the candidates by
start position, keep the first maximal-confidence candidate of each group,
and sort the survivors by start position. -/
def deduplicateMatches (ms : List RMatch) : List RMatch :=
  match ms with
  | [] => []
  | _ =>
    sortByStart ((groupByPosition ms).filterMap (fun g =>
      match g.2 with
      | [] => none
      | x :: rest => some (bestOf x rest)))

/-! Spec-side selection functions for the deduplication claim. -/

/-- The element of maximal span length (first one on ties), i.e. the
"longest match" selection that the specification describes. -/
def longestOf (best : RMatch) : List RMatch → RMatch
  | [] => best
  | x :: rest =>
    longestOf (if best.stop - best.start < x.stop - x.start then x else best) rest

/-- Start positions in order of first occurrence. -/
def firstOccStarts (ms : List RMatch) : List Nat :=
  ms.foldl (fun acc m => if m.start ∈ acc then acc else acc ++ [m.start]) []

/-- Deduplication as the specification words it: keep only the longest match
at each start position. -/
def specDedupLongest (ms : List RMatch) : List RMatch :=
  sortByStart ((firstOccStarts ms).filterMap (fun s =>
    match ms.filter (fun m => m.start = s) with
    | [] => none
    | x :: rest => some (longestOf x rest)))

/-- Deduplication as the source actually behaves: keep, at each start
position, the first candidate of maximal confidence tier (length plays no
role). -/
def specDedupByConfidence (ms : List RMatch) : List RMatch :=
  sortByStart ((firstOccStarts ms).filterMap (fun s =>
    match ms.filter (fun m => m.start = s) with
    | [] => none
    | x :: rest => some (bestOf x rest)))

/-! Auxiliary lemmas about the insertion-ordered grouping dict. -/

def keysOf (gs : List (Nat × List RMatch)) : List Nat := gs.map Prod.fst

def bucketOf (gs : List (Nat × List RMatch)) (s : Nat) : List RMatch :=
  match gs.find? (fun g => g.1 = s) with
  | some g => g.2
  | none => []

/-- A candidate list with two same-confidence matches at the same start
position, the shorter one produced first. -/
def dedupShortFirst : List RMatch :=
  [{ text := "150t", value := 150000, start := 7, stop := 11,
     confidence := .medium, pattern_type := "standard" },
   { text := "150tis km", value := 150000, start := 7, stop := 16,
     confidence := .medium, pattern_type := "standard" }]

/-! ## A small backtracking matcher engine for the concrete year regexes

`context_aware_patterns.py` compiles its year patterns with `re.IGNORECASE`.
Each pattern below is translated construct by construct: ordered alternation
(later alternatives are tried when an earlier alternative or its continuation
fails), greedy quantifiers with backtracking (longest repetition first), a
single capture group `(\d{4})`, and `finditer` semantics (leftmost scan,
resuming at the end of each match).  Positions are code-point indices, as in
Python strings. -/

/-- The data of one regex match: capture-group-1 start and end, and the
overall match end (`match.start(1)`, `match.end(1)`, `match.end()`). -/
structure PMatch where
  gstart : Nat
  gend : Nat
  mend : Nat
deriving DecidableEq, Repr

/-- A success continuation: given the position after the consumed input,
produce the final match (or fail, forcing backtracking). -/
abbrev K := Nat → Option PMatch

/-- A matcher transformer: consumes some input and calls its continuation. -/
abbrev M := K → K

def idM : M := fun k => k

def seqM (p q : M) : M := fun k => p (q k)

def seqsM (ps : List M) : M := ps.foldr seqM idM

/-- Ordered alternation with full backtracking: a later alternative is tried
when an earlier alternative or its continuation fails. -/
def altM (ps : List M) : M := fun k i =>
  ps.foldr (fun p acc => (p k i).orElse (fun _ => acc)) none

/-- Case-insensitive literal (the literal is given lowercase; the text
character is ASCII-lowercased). -/
def litCI (cs : List Char) (lit : List Char) (i : Nat) : Option Nat :=
  match lit with
  | [] => some i
  | c :: rest =>
    match cs[i]? with
    | some d => if lowerChar d = c then litCI cs rest (i + 1) else none
    | none => none

def litM (cs : List Char) (lit : String) : M := fun k i =>
  match litCI cs lit.data i with
  | some j => k j
  | none => none

/-- Greedy optional subpattern (`(?:...)?`): present first, absent on
backtracking. -/
def optM (p : M) : M := fun k i => (p k i).orElse (fun _ => k i)

/-- Greedy optional single character of a class (`[c]?`, `\s?`, `\.?`). -/
def classOptM (cs : List Char) (f : Char → Bool) : M := fun k i =>
  match cs[i]? with
  | some c => if f c then (k (i + 1)).orElse (fun _ => k i) else k i
  | none => k i

/-- Exactly one character of a class. -/
def classOneM (cs : List Char) (f : Char → Bool) : M := fun k i =>
  match cs[i]? with
  | some c => if f c then k (i + 1) else none
  | none => none

/-- End of the maximal run of class characters starting at `i`. -/
def runEnd (cs : List Char) (f : Char → Bool) (i : Nat) : Nat :=
  i + ((cs.drop i).takeWhile f).length

/-- `[hi, hi-1, ..., lo]`. -/
def downFrom (hi lo : Nat) : List Nat := (List.range' lo (hi + 1 - lo)).reverse

def firstSomeK (k : K) : List Nat → Option PMatch
  | [] => none
  | j :: rest => (k j).orElse (fun _ => firstSomeK k rest)

/-- Greedy `class+` with backtracking: try the longest run first. -/
def classPlusM (cs : List Char) (f : Char → Bool) : M := fun k i =>
  firstSomeK k (downFrom (runEnd cs f i) (i + 1))

/-- Greedy `class*` with backtracking: try the longest run first. -/
def classStarM (cs : List Char) (f : Char → Bool) : M := fun k i =>
  firstSomeK k (downFrom (runEnd cs f i) i)

/-- Exactly `n` digits starting at `i`; returns the end position. -/
def digitsEnd (cs : List Char) : Nat → Nat → Option Nat
  | 0, i => some i
  | n + 1, i =>
    match cs[i]? with
    | some c => if c.isDigit then digitsEnd cs n (i + 1) else none
    | none => none

/-- The `(\d{4})` capture group followed by a suffix matcher: records the
capture bounds and lets the suffix determine the overall match end. -/
def cap4 (cs : List Char) (suffix : M) : K := fun gs =>
  match digitsEnd cs 4 gs with
  | some ge => suffix (fun me => some ⟨gs, ge, me⟩) ge
  | none => none

/-- Python `\w` (with Unicode matching): ASCII alphanumerics, underscore,
and non-ASCII letters; non-ASCII codepoints are treated as word characters,
which is exact for the Czech letters appearing in these texts. -/
def isWordChar (c : Char) : Bool := c.isAlphanum || c = '_' || decide (c.toNat > 127)

/-- Python `\b` at position `i`. -/
def atWordBoundary (cs : List Char) (i : Nat) : Bool :=
  let prev := match i with
    | 0 => false
    | j + 1 => match cs[j]? with
      | some c => isWordChar c
      | none => false
  let cur := match cs[i]? with
    | some c => isWordChar c
    | none => false
  prev != cur

/-- `finditer` scanning loop: try every position from left to right, skip
past each match (`fuel` bounds the recursion; a fuel of `len + 2` suffices
since every step advances the position). -/
def finditerGo (matchAt : Nat → Option PMatch) (len : Nat) : Nat → Nat → List PMatch
  | 0, _ => []
  | fuel + 1, i =>
    if i > len then []
    else
      match matchAt i with
      | some m => m :: finditerGo matchAt len fuel (max m.mend (i + 1))
      | none => finditerGo matchAt len fuel (i + 1)

def finditer (matchAt : Nat → Option PMatch) (len : Nat) : List PMatch :=
  finditerGo matchAt len (len + 2) 0

/-- The capture-group substring of the text. -/
def sliceStr (cs : List Char) (a b : Nat) : String :=
  String.mk ((cs.drop a).take (b - a))

/-! ## The concrete year patterns of `ContextAwarePatterns` -/

def isColonDot (c : Char) : Bool := c = ':' || c = '.'

def isDotChar (c : Char) : Bool := c = '.'

/-- `YEAR_HIGH_CONFIDENCE[0]`:
`(?:rok\s+výroby|r\.?\s?v\.?|výroba|vyrobeno)\s*[:.]?\s*(\d{4})`. -/
def yearHigh1At (cs : List Char) : Nat → Option PMatch :=
  seqsM [altM [seqsM [litM cs "rok", classPlusM cs isWsChar, litM cs "výroby"],
               seqsM [litM cs "r", classOptM cs isDotChar, classOptM cs isWsChar,
                      litM cs "v", classOptM cs isDotChar],
               litM cs "výroba",
               litM cs "vyrobeno"],
         classStarM cs isWsChar, classOptM cs isColonDot, classStarM cs isWsChar]
    (cap4 cs idM)

/-- `YEAR_HIGH_CONFIDENCE[1]`: `(\d{4})\s*(?:rok\s+výroby|r\.?\s?v\.?)`. -/
def yearHigh2At (cs : List Char) : Nat → Option PMatch :=
  cap4 cs (seqsM [classStarM cs isWsChar,
                  altM [seqsM [litM cs "rok", classPlusM cs isWsChar, litM cs "výroby"],
                        seqsM [litM cs "r", classOptM cs isDotChar, classOptM cs isWsChar,
                               litM cs "v", classOptM cs isDotChar]]])

/-- `YEAR_HIGH_CONFIDENCE[2]`: `rč\.?\s*(\d{4})`. -/
def yearHigh3At (cs : List Char) : Nat → Option PMatch :=
  seqsM [litM cs "rč", classOptM cs isDotChar, classStarM cs isWsChar] (cap4 cs idM)

/-- `^` with no MULTILINE: position 0 only. -/
def startAnchorM : M := fun k i => if i = 0 then k i else none

/-- `YEAR_MEDIUM_CONFIDENCE[0]`: `(?:^|\s)(\d{4})\s*(?:km|kw|tdi|tsi)`. -/
def yearMed1At (cs : List Char) : Nat → Option PMatch :=
  altM [startAnchorM, classOneM cs isWsChar]
    (cap4 cs (seqsM [classStarM cs isWsChar,
                     altM [litM cs "km", litM cs "kw", litM cs "tdi", litM cs "tsi"]]))

/-- `YEAR_MEDIUM_CONFIDENCE[1]`:
`(?:škoda|vw|audi|bmw|toyota|ford|mazda)\s+\w+\s+(\d{4})`. -/
def yearMed2At (cs : List Char) : Nat → Option PMatch :=
  seqsM [altM [litM cs "škoda", litM cs "vw", litM cs "audi", litM cs "bmw",
               litM cs "toyota", litM cs "ford", litM cs "mazda"],
         classPlusM cs isWsChar, classPlusM cs isWordChar, classPlusM cs isWsChar]
    (cap4 cs idM)

/-- `YEAR_EXCLUDE[0]`:
`(?:stk|technická|emise|emisní)\s+(?:do|platnost|konec)?\s*(\d{4})`. -/
def yearExcl1At (cs : List Char) : Nat → Option PMatch :=
  seqsM [altM [litM cs "stk", litM cs "technická", litM cs "emise", litM cs "emisní"],
         classPlusM cs isWsChar,
         optM (altM [litM cs "do", litM cs "platnost", litM cs "konec"]),
         classStarM cs isWsChar]
    (cap4 cs idM)

/-- `YEAR_EXCLUDE[1]`: `(?:servis|serviska|oprava|výměna|vyměněn)\s+(\d{4})`. -/
def yearExcl2At (cs : List Char) : Nat → Option PMatch :=
  seqsM [altM [litM cs "servis", litM cs "serviska", litM cs "oprava",
               litM cs "výměna", litM cs "vyměněn"],
         classPlusM cs isWsChar]
    (cap4 cs idM)

/-- `YEAR_EXCLUDE[2]`:
`(?:pneumatiky|pneu|kola|brzdy|motor|převodovka)\s+(?:z|z\s+roku)?\s*(\d{4})`. -/
def yearExcl3At (cs : List Char) : Nat → Option PMatch :=
  seqsM [altM [litM cs "pneumatiky", litM cs "pneu", litM cs "kola",
               litM cs "brzdy", litM cs "motor", litM cs "převodovka"],
         classPlusM cs isWsChar,
         optM (altM [litM cs "z", seqsM [litM cs "z", classPlusM cs isWsChar, litM cs "roku"]]),
         classStarM cs isWsChar]
    (cap4 cs idM)

/-- `YEAR_EXCLUDE[3]`: `nové?\s+(?:od|z)\s+(\d{4})`. -/
def yearExcl4At (cs : List Char) : Nat → Option PMatch :=
  seqsM [litM cs "nov", classOptM cs (fun c => c = 'é'),
         classPlusM cs isWsChar, altM [litM cs "od", litM cs "z"],
         classPlusM cs isWsChar]
    (cap4 cs idM)

/-- `YEAR_EXCLUDE[4]`:
`(?:rozvody|rozvodový|řemen|řemeny|brzdy|brzdové|destičky|kotouče|olej|filtr|filtry)\s+(?:dělané?|dělaný|vyměněné?|vyměněn[yoa]?|při|z|ze)\s*(\d{4})`. -/
def yearExcl5At (cs : List Char) : Nat → Option PMatch :=
  seqsM [altM [litM cs "rozvody", litM cs "rozvodový", litM cs "řemen", litM cs "řemeny",
               litM cs "brzdy", litM cs "brzdové", litM cs "destičky", litM cs "kotouče",
               litM cs "olej", litM cs "filtr", litM cs "filtry"],
         classPlusM cs isWsChar,
         altM [seqsM [litM cs "dělan", classOptM cs (fun c => c = 'é')],
               litM cs "dělaný",
               seqsM [litM cs "vyměněn", classOptM cs (fun c => c = 'é')],
               seqsM [litM cs "vyměněn", classOptM cs (fun c => c = 'y' || c = 'o' || c = 'a')],
               litM cs "při", litM cs "z", litM cs "ze"],
         classStarM cs isWsChar]
    (cap4 cs idM)

/-- `YEAR_EXCLUDE[5]`:
`(?:dělané?|vyměněné?|vyměněn[yoa]?|oprava|opraveno)\s+(?:při|v|ve|z)?\s*(\d{4})`. -/
def yearExcl6At (cs : List Char) : Nat → Option PMatch :=
  seqsM [altM [seqsM [litM cs "dělan", classOptM cs (fun c => c = 'é')],
               seqsM [litM cs "vyměněn", classOptM cs (fun c => c = 'é')],
               seqsM [litM cs "vyměněn", classOptM cs (fun c => c = 'y' || c = 'o' || c = 'a')],
               litM cs "oprava", litM cs "opraveno"],
         classPlusM cs isWsChar,
         optM (altM [litM cs "při", litM cs "v", litM cs "ve", litM cs "z"]),
         classStarM cs isWsChar]
    (cap4 cs idM)

/-- The alternation `(19\d{2}|20[0-2]\d)` of `YEAR_LOW_CONFIDENCE[0]`. -/
def yearLowAlt (cs : List Char) (i : Nat) : Option Nat :=
  (match litCI cs ['1', '9'] i with
   | some j => digitsEnd cs 2 j
   | none => none).orElse (fun _ =>
    match litCI cs ['2', '0'] i with
    | some j =>
      match cs[j]? with
      | some c =>
        if '0' ≤ c && c ≤ '2' then
          match cs[j + 1]? with
          | some d => if d.isDigit then some (j + 2) else none
          | none => none
        else none
      | none => none
    | none => none)

/-- `YEAR_LOW_CONFIDENCE[0]`: `\b(19\d{2}|20[0-2]\d)\b` (the code uses
`match.group(0)` and `match.start()/end()`, which coincide with the group
since the boundaries are zero-width). -/
def yearLowAt (cs : List Char) (i : Nat) : Option PMatch :=
  if atWordBoundary cs i then
    match yearLowAlt cs i with
    | some e => if atWordBoundary cs e then some ⟨i, e, e⟩ else none
    | none => none
  else none

/-! ## `ContextAwarePatterns.find_years` -/

/-- The `excluded_years` set: every exclusion pattern's `finditer` captures
(`match.group(1)` strings), membership tested by string equality. -/
def excludedYears (cs : List Char) : List String :=
  [yearExcl1At cs, yearExcl2At cs, yearExcl3At cs,
   yearExcl4At cs, yearExcl5At cs, yearExcl6At cs].flatMap
    (fun p => (finditer p cs.length).map (fun m => sliceStr cs m.gstart m.gend))

/-- One tier's candidate loop of `find_years`: for each pattern in order, for
each `finditer` match, keep it when the captured year string is not excluded
and `1990 <= int(year_str) <= 2026`. -/
def yearTierCandidates (cs : List Char) (pats : List (Nat → Option PMatch))
    (conf : Confidence) (ptype : String) (excluded : List String) : List RMatch :=
  pats.flatMap (fun p =>
    (finditer p cs.length).filterMap (fun m =>
      let ys := sliceStr cs m.gstart m.gend
      let yv := digitsToNat ys.data
      if ys ∉ excluded ∧ 1990 ≤ yv ∧ yv ≤ 2026 then
        some { text := ys, value := yv, start := m.gstart, stop := m.gend,
               confidence := conf, pattern_type := ptype }
      else none))

def highYearCands (cs : List Char) : List RMatch :=
  yearTierCandidates cs [yearHigh1At cs, yearHigh2At cs, yearHigh3At cs]
    .high "production_year_context" (excludedYears cs)

def medYearCands (cs : List Char) : List RMatch :=
  yearTierCandidates cs [yearMed1At cs, yearMed2At cs]
    .medium "contextual" (excludedYears cs)

def lowYearCands (cs : List Char) : List RMatch :=
  yearTierCandidates cs [yearLowAt cs]
    .low "standalone" (excludedYears cs)

/-- `ContextAwarePatterns.find_years`: high tier; medium only when high found
nothing; low only when both found nothing; deduplicate. -/
def findYears (text : String) : List RMatch :=
  let cs := text.data
  let found := highYearCands cs
  let found := if found.isEmpty then medYearCands cs else found
  let found := if found.isEmpty then lowYearCands cs else found
  deduplicateMatches found

/-! ## `ContextAwarePatterns._parse_mileage` -/

/-- Python `sub in s` on strings. -/
def containsAux (sub : List Char) : List Char → Bool
  | [] => sub.isEmpty
  | c :: rest => sub.isPrefixOf (c :: rest) || containsAux sub rest

def strContains (s sub : String) : Bool := containsAux sub.data s.data

/-- Leading `\d+(?:[.,]\d+)?` of the anchored thousands-indicator patterns:
consumes the digits and an optional decimal part, or fails. -/
def dropNumDec (cs : List Char) : Option (List Char) :=
  let ds := cs.takeWhile Char.isDigit
  if ds.isEmpty then none
  else
    let rest := cs.drop ds.length
    match rest with
    | c :: rest2 =>
      if c = '.' || c = ',' then
        let ds2 := rest2.takeWhile Char.isDigit
        if ds2.isEmpty then some rest else some (rest2.drop ds2.length)
      else some rest
    | [] => some []

/-- The anchored tail `(?:\s*km)?$`: either end of input, or whitespace
followed by exactly `km` at the end. -/
def endOrKm (cs : List Char) : Bool :=
  cs.isEmpty || (cs.dropWhile isWsChar = ['k', 'm'])

/-- `re.search(r'^(\d+(?:[.,]\d+)?)\s*tis(?:íc)?\.?(?:\s*km)?$', s)` as a
Boolean. -/
def matchesTis (cs : List Char) : Bool :=
  match dropNumDec cs with
  | none => false
  | some rest =>
    let rest := rest.dropWhile isWsChar
    if ['t', 'i', 's'].isPrefixOf rest then
      let rest := rest.drop 3
      let rest := if ['í', 'c'].isPrefixOf rest then rest.drop 2 else rest
      let rest := match rest with
        | '.' :: r => r
        | r => r
      endOrKm rest
    else false

/-- `re.search(r'^(\d+(?:[.,]\d+)?)\s*k\s*(?:km)?$', s)` as a Boolean. -/
def matchesK (cs : List Char) : Bool :=
  match dropNumDec cs with
  | none => false
  | some rest =>
    match rest.dropWhile isWsChar with
    | 'k' :: rest2 =>
      let r := rest2.dropWhile isWsChar
      r.isEmpty || r = ['k', 'm']
    | _ => false

/-- `re.search(r'^(\d+(?:[.,]\d+)?)\s*t\.?\s*(?:km)?$', s)` as a Boolean. -/
def matchesT (cs : List Char) : Bool :=
  match dropNumDec cs with
  | none => false
  | some rest =>
    match rest.dropWhile isWsChar with
    | 't' :: rest2 =>
      let rest2 := match rest2 with
        | '.' :: r => r
        | r => r
      let r := rest2.dropWhile isWsChar
      r.isEmpty || r = ['k', 'm']
    | _ => false

/-- `re.search(r'^(\d+)\s*xxx\s*(?:km)?$', s)` as a Boolean. -/
def matchesXxx (cs : List Char) : Bool :=
  let ds := cs.takeWhile Char.isDigit
  if ds.isEmpty then false
  else
    let rest := (cs.drop ds.length).dropWhile isWsChar
    if ['x', 'x', 'x'].isPrefixOf rest then
      let r := (rest.drop 3).dropWhile isWsChar
      r.isEmpty || r = ['k', 'm']
    else false

/-- `re.match(r'(\d{1,3})[.,](\d{3})(?:[.,](\d{3}))?', s)`: the separator
groups, with `\d{1,3}` greedily backtracked from three digits down. -/
def matchThousandsSep (cs : List Char) : Option (List Char × List Char × Option (List Char)) :=
  let digitsRun := cs.takeWhile Char.isDigit
  let tryLen : Nat → Option (List Char × List Char × Option (List Char)) := fun n =>
    if digitsRun.length < n then none
    else
      let g1 := cs.take n
      match cs.drop n with
      | c :: rest =>
        if c = '.' || c = ',' then
          let g2 := rest.take 3
          if g2.length = 3 ∧ g2.all Char.isDigit then
            let rest2 := rest.drop 3
            match rest2 with
            | c2 :: rest3 =>
              if c2 = '.' || c2 = ',' then
                let g3 := rest3.take 3
                if g3.length = 3 ∧ g3.all Char.isDigit then some (g1, g2, some g3)
                else some (g1, g2, none)
              else some (g1, g2, none)
            | [] => some (g1, g2, none)
          else none
        else none
      | [] => none
  ((tryLen 3).orElse (fun _ => tryLen 2)).orElse (fun _ => tryLen 1)

/-- `re.match(r'(\d+)[.,](\d{1,2})', s)`: leading digits, a separator, and
one or two fractional digits. -/
def matchDecimal (cs : List Char) : Option (List Char × List Char) :=
  let ds := cs.takeWhile Char.isDigit
  if ds.isEmpty then none
  else
    match cs.drop ds.length with
    | c :: rest =>
      if c = '.' || c = ',' then
        let fs := (rest.takeWhile Char.isDigit).take 2
        if fs.isEmpty then none else some (ds, fs)
      else none
    | [] => none

/-- All digit runs of the string (`re.findall(r'\d+', s)`), joined. -/
def joinedDigitRuns (cs : List Char) : List Char :=
  match cs with
  | [] => []
  | c :: rest =>
    if c.isDigit then c :: joinedDigitRuns rest else joinedDigitRuns rest

/-- `ContextAwarePatterns._parse_mileage(number_str, full_text)`.  The float
multiplication of the decimal branch (`1.5tis` → `1500`) is modelled by exact
rational arithmetic; it can differ from CPython only where binary rounding of
the decimal fraction crosses an integer. -/
def parseMileage (numberStr fullText : String) : Nat :=
  let ftl := stripChars (lowerStr fullText.data)
  let hasTis := matchesTis ftl
  let hasK := matchesK ftl
  let hasT := matchesT ftl && !(strContains (String.mk ftl) "tdi") && !(strContains (String.mk ftl) "tsi")
  let hasXxx := matchesXxx ftl
  let hasStars := strContains fullText "***" || strContains fullText "* * *"
  let multiplyByThousand := hasTis || hasK || hasT || hasXxx || hasStars
  let ns := numberStr.data
  match matchThousandsSep ns, multiplyByThousand with
  | some (g1, g2, g3), false =>
    digitsToNat (g1 ++ g2 ++ (g3.getD []))
  | sepRes, _ =>
    match matchDecimal ns, multiplyByThousand, sepRes with
    | some (ds, fs), true, _ =>
      digitsToNat ds * 1000 + (if fs.length = 1 then digitsToNat fs * 100 else digitsToNat fs * 10)
    | _, _, _ =>
      let cleaned := ns.filter (fun c =>
        !(c = ' ' || c = '.' || c = '_' || c = ',' || c = '\n' || c = '\t' || c = '\r'))
      let joined := joinedDigitRuns cleaned
      if joined.isEmpty then 0
      else
        let base := digitsToNat joined
        if multiplyByThousand && base < 1000 then base * 1000 else base

/-! ## `ContextAwarePatterns.find_mileage`, factored at its regex boundary

The mileage tier patterns are not needed by any claim individually, so
`find_mileage` is embedded as a function of the per-tier `finditer` results:
each scan item carries `match.group(1)`, `match.group(2)`, `match.start(1)`
and `match.end(1)` of one match, flattened in pattern order, and the
exclusion scan is given by its set of `match.start(1)` positions. -/

structure MScanItem where
  group1 : String
  group2 : String
  start1 : Nat
  end1 : Nat
deriving DecidableEq, Repr

/-- One tier's candidate loop of `find_mileage`: keep matches whose capture
start is not excluded, parsing the value with `_parse_mileage`. -/
def mileageCandidatesOf (excludedPositions : List Nat) (scan : List MScanItem)
    (conf : Confidence) (ptype : String) : List RMatch :=
  scan.filterMap (fun it =>
    if it.start1 ∉ excludedPositions then
      some { text := it.group1, value := parseMileage it.group2 it.group1,
             start := it.start1, stop := it.end1,
             confidence := conf, pattern_type := ptype }
    else none)

/-- `ContextAwarePatterns.find_mileage`: high tier; medium only when high
found nothing; deduplicate. -/
def findMileageFrom (excludedPositions : List Nat) (highScan medScan : List MScanItem) :
    List RMatch :=
  let found := mileageCandidatesOf excludedPositions highScan .high "mileage_context"
  let found := if found.isEmpty then
      mileageCandidatesOf excludedPositions medScan .medium "standard"
    else found
  deduplicateMatches found

/-- A text containing both required phrases in which the production year
2015 is additionally captured by the service-date exclusion pattern. -/
def stkServisText : String := "rok výroby 2015, STK do 2027, servis 2015"

/-! ## `ml/production_extractor.py` -/

/-- The four extracted fields, in the loop order of the source
(`['mileage', 'year', 'power', 'fuel']`). -/
inductive CarField where
  | mileage
  | year
  | power
  | fuel
deriving DecidableEq, Repr

/-- A `{mileage, year, power, fuel}` dict of raw optional strings. -/
structure FieldMap where
  mileage : Option String
  year : Option String
  power : Option String
  fuel : Option String
deriving DecidableEq, Repr

/-! ### `DataNormalizer` -/

def FUEL_DIESEL : List String :=
  ["diesel", "nafta", "tdi", "td", "motorová nafta", "motorova nafta"]

def FUEL_BENZIN : List String := ["benzín", "benzin", "gas", "gasoline", "b"]

def FUEL_LPG : List String := ["lpg", "plyn"]

def FUEL_ELECTRIC : List String := ["elektro", "electric", "ev", "elektřina"]

/-- `DataNormalizer.normalize_fuel`: canonicalize known fuel spellings,
return the input unchanged for unknown ones. -/
def normalizeFuel (fuel : Option String) : Option String :=
  match fuel with
  | none => none
  | some f =>
    if f.isEmpty then none
    else
      let fl := String.mk (stripChars (lowerStr f.data))
      if fl ∈ FUEL_DIESEL then some "diesel"
      else if fl ∈ FUEL_BENZIN then some "benzín"
      else if fl ∈ FUEL_LPG then some "lpg"
      else if fl ∈ FUEL_ELECTRIC then some "elektro"
      else some f

/-- One position of `re.search(r'\d+\s*(?:tis|t)\.?\s*km', s)`, applied to a
suffix of the string. -/
def tisKmHead (cs : List Char) : Bool :=
  let ds := cs.takeWhile Char.isDigit
  if ds.isEmpty then false
  else
    let r := (cs.drop ds.length).dropWhile isWsChar
    let r2 := if ['t', 'i', 's'].isPrefixOf r then some (r.drop 3)
      else if ['t'].isPrefixOf r then some (r.drop 1)
      else none
    match r2 with
    | none => false
    | some r3 =>
      let r4 := match r3 with
        | '.' :: t => t
        | t => t
      ['k', 'm'].isPrefixOf (r4.dropWhile isWsChar)

def searchTisKm : List Char → Bool
  | [] => false
  | c :: rest => tisKmHead (c :: rest) || searchTisKm rest

/-- `DataNormalizer.normalize_mileage` on a raw string value: strip spaces
and dots, take the first digit run, multiply by 1000 when a
`\d+\s*(?:tis|t)\.?\s*km` pattern occurs (case-insensitively) in the
stripped string. -/
def normalizeMileageDB (mileage : Option String) : Option Nat :=
  match mileage with
  | none => none
  | some s =>
    if s.isEmpty then none
    else
      let cleaned := s.data.filter (fun c => !(c = ' ' || c = '.'))
      match firstDigitRun cleaned with
      | none => none
      | some ds =>
        let v := digitsToNat ds
        if searchTisKm (lowerStr cleaned) then some (v * 1000) else some v

/-- `DataNormalizer.normalize_power` on a raw string value: the first digit
run. -/
def normalizePowerDB (power : Option String) : Option Nat :=
  match power with
  | none => none
  | some s =>
    if s.isEmpty then none
    else (firstDigitRun s.data).map digitsToNat

/-- First `\d{4}` occurrence (`re.search(r'(\d{4})', s)`). -/
def firstFourDigits : List Char → Option Nat
  | [] => none
  | c :: rest =>
    let four := (c :: rest).take 4
    if four.length = 4 ∧ four.all Char.isDigit then some (digitsToNat four)
    else firstFourDigits rest

/-- `DataNormalizer.normalize_year` on a raw string value. -/
def normalizeYearDB (year : Option String) : Option Nat :=
  match year with
  | none => none
  | some s =>
    if s.isEmpty then none
    else firstFourDigits s.data

/-! ### `_compare_results` -/

/-- 'full' / 'partial' / 'none' (the constructors are named `full`,
`partly`, `noneLevel` because the source's identifiers collide with Lean
keywords). -/
inductive AgreementLevel where
  | full
  | partly
  | noneLevel
deriving DecidableEq, Repr

/-- Which branch of the standard (non-resolver) field comparison fires. -/
inductive StdBucket where
  | agree
  | disagree
  | mlOnly
  | rxOnly
  | empty
deriving DecidableEq, Repr

/-- The standard comparison of `_compare_results` for fields without a
resolution object (year, fuel): exact raw equality. -/
def stdCat (mlv rxv : Option String) : StdBucket :=
  match mlv, rxv with
  | some a, some b => if a = b then .agree else .disagree
  | some _, none => .mlOnly
  | none, some _ => .rxOnly
  | none, none => .empty

/-- The comparison dict built by `_compare_results`. -/
structure Comparison where
  agreements : List CarField
  disagreements : List CarField
  ml_only : List CarField
  regex_only : List CarField
  both_empty : List CarField
  agreement_level : AgreementLevel
  power_disagreement_type : Option DisagreementType
  mileage_disagreement_type : Option DisagreementType
deriving DecidableEq, Repr

/-- `ProductionExtractor._compare_results` (with both resolution objects
present, as on the `extract` path): mileage and power count as agreeing
unless their resolver classification is MAJOR; year and fuel agree only on
exact raw equality of two present values; the per-field loop appends in the
order mileage, year, power, fuel; the level is full at 4 agreements, partial
at ≥ 2, none otherwise. -/
def compareResults (ml rx : FieldMap) (pres mres : MileageResolution) : Comparison :=
  let yb := stdCat ml.year rx.year
  let fb := stdCat ml.fuel rx.fuel
  let agreements :=
    (if mres.disagreement_type = .MAJOR then [] else [CarField.mileage]) ++
    (if yb = .agree then [CarField.year] else []) ++
    (if pres.disagreement_type = .MAJOR then [] else [CarField.power]) ++
    (if fb = .agree then [CarField.fuel] else [])
  let disagreements :=
    (if mres.disagreement_type = .MAJOR then [CarField.mileage] else []) ++
    (if yb = .disagree then [CarField.year] else []) ++
    (if pres.disagreement_type = .MAJOR then [CarField.power] else []) ++
    (if fb = .disagree then [CarField.fuel] else [])
  let mlOnly :=
    (if yb = .mlOnly then [CarField.year] else []) ++ (if fb = .mlOnly then [CarField.fuel] else [])
  let rxOnly :=
    (if yb = .rxOnly then [CarField.year] else []) ++ (if fb = .rxOnly then [CarField.fuel] else [])
  let bothEmpty :=
    (if yb = .empty then [CarField.year] else []) ++ (if fb = .empty then [CarField.fuel] else [])
  let agreed := agreements.length
  let level : AgreementLevel :=
    if agreed = 4 then .full else if 2 ≤ agreed then .partly else .noneLevel
  { agreements := agreements, disagreements := disagreements,
    ml_only := mlOnly, regex_only := rxOnly, both_empty := bothEmpty,
    agreement_level := level,
    power_disagreement_type := some pres.disagreement_type,
    mileage_disagreement_type := some mres.disagreement_type }

/-! ### `_decide_final_result` -/

/-- `ProductionExtractor._decide_final_result`: power and mileage take the
resolver's resolved value; year and fuel follow the comparison buckets
(agree → ML, disagree → regex, one-sided → the present source); the
confidence label follows the agreement level, downgraded from high to medium
when either resolver reports MAJOR. -/
def decideFinalResult (ml rx : FieldMap) (c : Comparison)
    (pres mres : MileageResolution) : FieldMap × Confidence :=
  let pick := fun (b : StdBucket) (mlv rxv : Option String) =>
    match b with
    | .agree => mlv
    | .disagree => rxv
    | .mlOnly => mlv
    | .rxOnly => rxv
    | .empty => none
  let final : FieldMap :=
    { mileage := mres.resolved_value,
      year := pick (stdCat ml.year rx.year) ml.year rx.year,
      power := pres.resolved_value,
      fuel := pick (stdCat ml.fuel rx.fuel) ml.fuel rx.fuel }
  let conf : Confidence :=
    match c.agreement_level with
    | .full => .high
    | .partly => .medium
    | .noneLevel => .low
  let conf := if pres.disagreement_type = .MAJOR ∧ conf = .high then .medium else conf
  let conf := if mres.disagreement_type = .MAJOR ∧ conf = .high then .medium else conf
  (final, conf)

/-! ### `_add_to_auto_training` entity location -/

/-- Python `text.find(sub)` (case-sensitive, code-point index). -/
def findSub (cs sub : List Char) : Option Nat :=
  match cs with
  | [] => if sub.isEmpty then some 0 else none
  | c :: rest =>
    if sub.isPrefixOf (c :: rest) then some 0
    else (findSub rest sub).map (fun i => i + 1)

/-- `\s?km` (case-insensitive), greedy: with the whitespace first. -/
def wsOptKm (cs : List Char) (j : Nat) : Option Nat :=
  (match cs[j]? with
   | some c => if isWsChar c then litCI cs ['k', 'm'] (j + 1) else none
   | none => none).orElse (fun _ => litCI cs ['k', 'm'] j)

/-- The starred group `(?:\s?\d{3})*` of the first auto-training mileage
pattern, greedy with backtracking, followed by the continuation. -/
def groupStar (cs : List Char) (k : Nat → Option Nat) : Nat → Nat → Option Nat
  | 0, j => k j
  | fuel + 1, j =>
    (match cs[j]? with
     | some c =>
       if isWsChar c then
         match digitsEnd cs 3 (j + 1) with
         | some j2 => groupStar cs k fuel j2
         | none => none
       else none
     | none => none).orElse (fun _ =>
      (match digitsEnd cs 3 j with
       | some j2 => groupStar cs k fuel j2
       | none => none).orElse (fun _ => k j))

/-- `re.search(r'\d{1,3}(?:\s?\d{3})*\s?km', text, re.IGNORECASE)` tried at
one position: `\d{1,3}` greedily backtracked from three digits down. -/
def autoMileagePat1At (cs : List Char) (i : Nat) : Option Nat :=
  let tryLen := fun (n : Nat) =>
    match digitsEnd cs n i with
    | some j => groupStar cs (fun j2 => wsOptKm cs j2) (cs.length + 1) j
    | none => none
  ((tryLen 3).orElse (fun _ => tryLen 2)).orElse (fun _ => tryLen 1)

/-- `re.search(r'\d{1,3}\s?(?:tis|t)\s?km', text, re.IGNORECASE)` tried at
one position. -/
def autoMileagePat2At (cs : List Char) (i : Nat) : Option Nat :=
  let afterUnit := fun (j : Nat) =>
    (match litCI cs ['t', 'i', 's'] j with
     | some j2 => wsOptKm cs j2
     | none => none).orElse (fun _ =>
      match litCI cs ['t'] j with
      | some j2 => wsOptKm cs j2
      | none => none)
  let afterDigits := fun (j : Nat) =>
    (match cs[j]? with
     | some c => if isWsChar c then afterUnit (j + 1) else none
     | none => none).orElse (fun _ => afterUnit j)
  let tryLen := fun (n : Nat) =>
    match digitsEnd cs n i with
    | some j => afterDigits j
    | none => none
  ((tryLen 3).orElse (fun _ => tryLen 2)).orElse (fun _ => tryLen 1)

/-- `re.search` driver: leftmost matching position. -/
def searchFirst (matchAt : Nat → Option Nat) (len : Nat) : Nat → Nat → Option (Nat × Nat)
  | 0, _ => none
  | fuel + 1, i =>
    if i > len then none
    else
      match matchAt i with
      | some e => some (i, e)
      | none => searchFirst matchAt len fuel (i + 1)

def reSearch (matchAt : Nat → Option Nat) (len : Nat) : Option (Nat × Nat) :=
  searchFirst matchAt len (len + 2) 0

/-- `rf"{power}\s?(?:kw|ps|koní)"` tried at one position; the interpolated
raw power string contains no regex metacharacters in this data and is
modelled as a literal. -/
def powerEntityPatAt (cs : List Char) (power : String) (i : Nat) : Option Nat :=
  match litCI cs (lowerStr power.data) i with
  | some j =>
    let unit := fun (j2 : Nat) =>
      ((litCI cs ['k', 'w'] j2).orElse (fun _ => litCI cs ['p', 's'] j2)).orElse
        (fun _ => litCI cs ['k', 'o', 'n', 'í'] j2)
    (match cs[j]? with
     | some c => if isWsChar c then unit (j + 1) else none
     | none => none).orElse (fun _ => unit j)
  | none => none

/-- The entity list built by `_add_to_auto_training`: mileage span from the
first matching of two patterns, year via `text.find` (span of length 4),
power via the interpolated pattern, fuel via case-insensitive `find`. -/
def findTrainingEntities (text : String) (result : FieldMap) : List (Nat × Nat × String) :=
  let cs := text.data
  let e1 : List (Nat × Nat × String) :=
    if isTruthy result.mileage then
      match reSearch (autoMileagePat1At cs) cs.length with
      | some (a, b) => [(a, b, "MILEAGE")]
      | none =>
        match reSearch (autoMileagePat2At cs) cs.length with
        | some (a, b) => [(a, b, "MILEAGE")]
        | none => []
    else []
  let e2 : List (Nat × Nat × String) :=
    if isTruthy result.year then
      match result.year with
      | some y =>
        match findSub cs y.data with
        | some pos => [(pos, pos + 4, "YEAR")]
        | none => []
      | none => []
    else []
  let e3 : List (Nat × Nat × String) :=
    if isTruthy result.power then
      match result.power with
      | some p =>
        match reSearch (powerEntityPatAt cs p) cs.length with
        | some (a, b) => [(a, b, "POWER")]
        | none => []
      | none => []
    else []
  let e4 : List (Nat × Nat × String) :=
    if isTruthy result.fuel then
      match result.fuel with
      | some f =>
        match findSub (lowerStr cs) (lowerStr f.data) with
        | some pos => [(pos, pos + f.data.length, "FUEL")]
        | none => []
      | none => []
    else []
  e1 ++ e2 ++ e3 ++ e4

/-! ### Queues, statistics and the `extract` state transition -/

/-- An auto-training queue entry (`_add_to_auto_training`). -/
structure AutoEntry where
  data : String × List (Nat × Nat × String)
  car_id : Option String
  timestamp : String
  confidence : String
  source : String
deriving DecidableEq, Repr

/-- A review queue entry (`_add_to_review_queue`). -/
structure ReviewEntry where
  car_id : Option String
  text : String
  ml_result : FieldMap
  regex_result : FieldMap
  comparison : Comparison
  timestamp : String
deriving DecidableEq, Repr

structure FieldStats where
  agree : Nat
  disagree : Nat
deriving DecidableEq, Repr

/-- The `self.stats` dict (`mid_agreements` models the source's
`'partial_agreements'` counter). -/
structure Stats where
  total_extractions : Nat
  full_agreements : Nat
  mid_agreements : Nat
  disagreements : Nat
  mileage_stats : FieldStats
  year_stats : FieldStats
  power_stats : FieldStats
  fuel_stats : FieldStats
deriving DecidableEq, Repr

/-- The mutable state of a `ProductionExtractor` instance: the two in-memory
queues and the statistics counters. -/
structure ExtractorState where
  auto_training_queue : List AutoEntry
  review_queue : List ReviewEntry
  stats : Stats
deriving DecidableEq, Repr

def initialState : ExtractorState :=
  { auto_training_queue := [], review_queue := [],
    stats := { total_extractions := 0, full_agreements := 0, mid_agreements := 0,
               disagreements := 0,
               mileage_stats := ⟨0, 0⟩, year_stats := ⟨0, 0⟩,
               power_stats := ⟨0, 0⟩, fuel_stats := ⟨0, 0⟩ } }

/-- `_add_to_review_queue`: append the entry (text truncated to 500
characters). -/
def mkReviewEntry (text : String) (mlRaw rxRaw : FieldMap) (carId : Option String)
    (comparison : Comparison) (now : String) : ReviewEntry :=
  { car_id := carId, text := String.mk (text.data.take 500),
    ml_result := mlRaw, regex_result := rxRaw,
    comparison := comparison, timestamp := now }

/-- `_add_to_auto_training`: append the spaCy-format training example. -/
def mkAutoEntry (text : String) (result : FieldMap) (carId : Option String)
    (now : String) : AutoEntry :=
  { data := (text, findTrainingEntities text result),
    car_id := carId, timestamp := now,
    confidence := "high", source := "auto_agreement" }

def bumpFieldStats (fs : FieldStats) (c : Comparison) (f : CarField) : FieldStats :=
  if f ∈ c.agreements then { fs with agree := fs.agree + 1 }
  else if f ∈ c.disagreements then { fs with disagree := fs.disagree + 1 }
  else fs

/-- `_update_field_stats`. -/
def updateFieldStats (c : Comparison) (st : ExtractorState) : ExtractorState :=
  { st with stats :=
    { st.stats with
      mileage_stats := bumpFieldStats st.stats.mileage_stats c .mileage,
      year_stats := bumpFieldStats st.stats.year_stats c .year,
      power_stats := bumpFieldStats st.stats.power_stats c .power,
      fuel_stats := bumpFieldStats st.stats.fuel_stats c .fuel } }

/-- The response dict of `extract`. -/
structure Response where
  mileage : Option Nat
  year : Option Nat
  power : Option Nat
  fuel : Option String
  confidence : Confidence
  agreement : AgreementLevel
  flagged_for_review : Bool
  car_id : Option String
  raw_values : FieldMap
  power_resolution : MileageResolution
  mileage_resolution : MileageResolution
deriving DecidableEq, Repr

/-- `ProductionExtractor.extract` as a state transition.  The call
`self.ml_extractor.extract(text)` is passed in as an `Except` value (an
exception raised by the model call propagates, as in the Python source,
which wraps it in no handler, after `total_extractions` was already
incremented); the regex extraction result `self._extract_with_regex(text)`
is passed in as a field map; `datetime.now().isoformat()` is passed in as
`now`.  Power resolution uses `prefer_ml=False`, mileage resolution
`prefer_ml=True`, as at the call sites. -/
def extractStep (text : String) (mlCall : Except String FieldMap) (regexRes : FieldMap)
    (carId : Option String) (now : String) (st : ExtractorState) :
    Except String Response × ExtractorState :=
  let st := { st with stats :=
    { st.stats with total_extractions := st.stats.total_extractions + 1 } }
  match mlCall with
  | .error e => (.error e, st)
  | .ok mlRaw =>
    let pres := powerResolve false mlRaw.power regexRes.power none
    let mres := mileageResolve true mlRaw.mileage regexRes.mileage none
    let comparison := compareResults mlRaw regexRes pres mres
    let dec := decideFinalResult mlRaw regexRes comparison pres mres
    let finalRaw := dec.1
    let conf := dec.2
    let st := match comparison.agreement_level with
      | .full =>
        { st with
          auto_training_queue :=
            st.auto_training_queue ++ [mkAutoEntry text finalRaw carId now],
          stats := { st.stats with full_agreements := st.stats.full_agreements + 1 } }
      | .partly =>
        { st with stats := { st.stats with mid_agreements := st.stats.mid_agreements + 1 } }
      | .noneLevel =>
        { st with
          review_queue :=
            st.review_queue ++ [mkReviewEntry text mlRaw regexRes carId comparison now],
          stats := { st.stats with disagreements := st.stats.disagreements + 1 } }
    let st := updateFieldStats comparison st
    let response : Response :=
      { mileage := normalizeMileageDB finalRaw.mileage,
        year := normalizeYearDB finalRaw.year,
        power := normalizePowerDB finalRaw.power,
        fuel := normalizeFuel finalRaw.fuel,
        confidence := conf,
        agreement := comparison.agreement_level,
        flagged_for_review := comparison.agreement_level = .noneLevel,
        car_id := carId,
        raw_values := finalRaw,
        power_resolution := pres,
        mileage_resolution := mres }
    (.ok response, st)

/-- The ML field map, regex field map and resolution records of a listing
where the regex extractor missed the year: every field classification is
NONE or MINOR_FORMATTING, but the comparison counts only three agreements. -/
def c7ml : FieldMap :=
  ⟨some "150000 km", some "2015", some "110 kw", some "diesel"⟩

def c7rx : FieldMap :=
  ⟨some "150000 km", none, some "110 kw", some "diesel"⟩

/-- The power resolution of the agreeing pair `"110 kw"`/`"110 kw"`. -/
def c7pres : MileageResolution :=
  { ml_raw := some "110 kw", regex_raw := some "110 kw",
    normalized_ml := some "110kw", normalized_regex := some "110kw",
    disagreement_type := .NONE, resolved_value := some "110 kw",
    resolution_method := .AUTO_NORMALIZED, confidence := 0.95 }

/-- The mileage resolution of the agreeing pair `"150000 km"`. -/
def c7mres : MileageResolution :=
  { ml_raw := some "150000 km", regex_raw := some "150000 km",
    normalized_ml := some "150000km", normalized_regex := some "150000km",
    disagreement_type := .NONE, resolved_value := some "150000 km",
    resolution_method := .AUTO_NORMALIZED, confidence := 0.95 }

/-- The comparison `extract` computes for a given pair of extraction
results (power resolved with `prefer_ml=False`, mileage with
`prefer_ml=True`). -/
def extractComparison (mlRaw rx : FieldMap) : Comparison :=
  compareResults mlRaw rx (powerResolve false mlRaw.power rx.power none)
    (mileageResolve true mlRaw.mileage rx.mileage none)

/-- The raw final result `extract` computes for a given pair of extraction
results. -/
def extractFinalRaw (mlRaw rx : FieldMap) : FieldMap :=
  (decideFinalResult mlRaw rx (extractComparison mlRaw rx)
    (powerResolve false mlRaw.power rx.power none)
    (mileageResolve true mlRaw.mileage rx.mileage none)).1

/-- A listing whose comparison has zero agreements (mileage and power MAJOR,
year and fuel one-sided). -/
def c9ml : FieldMap := ⟨some "100000 km", some "2015", some "150 kw", some "diesel"⟩

def c9rx : FieldMap := ⟨some "200000 km", none, some "110 kw", none⟩

/-! ## Inversion and locality infrastructure for the matcher engine

These definitions support proofs about the year matchers on arbitrary
texts: shifting a match between the full text and a dropped suffix,
and structural invariants of the matches a pattern can produce. -/

/-- Shift a match's positions by `i`: relates matching on the full text at
offset `i` to matching on the dropped suffix at offset 0. -/
def shiftPM (i : Nat) (pm : PMatch) : PMatch :=
  { gstart := i + pm.gstart, gend := i + pm.gend, mend := i + pm.mend }

/-- The continuation `k` on the full text mirrors `kd` on the suffix
`cs.drop i`: launched `j` past the offset it produces the shifted match. -/
def KRel (i : Nat) (k kd : K) : Prop :=
  ∀ j, k (i + j) = (kd j).map (shiftPM i)

/-- No digit character at position `t` of the text. -/
def NoDigitAt (cs : List Char) (t : Nat) : Prop :=
  ∀ c, cs[t]? = some c → c.isDigit = false

/-- Structure of a match produced from launch position `i`: the capture is
four digits, the overall end is the capture end, and everything consumed
before the capture is non-digit. -/
def PrefixSafe (cs : List Char) (i : Nat) (pm : PMatch) : Prop :=
  i ≤ pm.gstart ∧ pm.gend = pm.gstart + 4 ∧ pm.mend = pm.gend ∧
  (∀ t, i ≤ t → t < pm.gstart → NoDigitAt cs t) ∧
  (∀ t, pm.gstart ≤ t → t < pm.gend → ∃ c, cs[t]? = some c ∧ c.isDigit = true)

/-- Every output of the continuation is `PrefixSafe` from its launch
position. -/
def KSafe (cs : List Char) (k : K) : Prop :=
  ∀ i pm, k i = some pm → PrefixSafe cs i pm

/-- Every output of the combinator is an output of its continuation. -/
def KThru (c : M) : Prop :=
  ∀ (k : K) (i : Nat) (pm : PMatch), c k i = some pm → ∃ j, k j = some pm

/-! ## Theorems -/

/-- C1: with no manual override, `resolve`'s disagreement classification is
exactly the specification's five-case table applied to the two normalized
values. -/
theorem resolve_classification_matches_spec_table
    (preferMl : Bool) (mlRaw rxRaw : Option String) :
    (mileageResolve preferMl mlRaw rxRaw none).disagreement_type =
      specDisagreementTable (mileageNormalize mlRaw) (mileageNormalize rxRaw) := by
  unfold mileageResolve specDisagreementTable classifyDisagreement
  cases mileageNormalize mlRaw <;> cases mileageNormalize rxRaw <;> rfl

/-- Classification is `MAJOR` only when both normalized values are present. -/
theorem classifyDisagreement_major_both_some {nml nrx : Option String}
    (h : classifyDisagreement nml nrx = .MAJOR) : nml.isSome ∧ nrx.isSome := by
  cases nml <;> cases nrx <;> simp_all [classifyDisagreement]

theorem resolveDisagreement_major_prefMl {ml rx nml nrx : Option String}
    (h : nml.isSome) :
    resolveDisagreement true ml rx nml nrx .MAJOR = ⟨ml, .ML_PREFERRED, 0.70⟩ := by
  simp [resolveDisagreement, h]

theorem resolveDisagreement_major_prefRx {ml rx nml nrx : Option String}
    (h : nrx.isSome) :
    resolveDisagreement false ml rx nml nrx .MAJOR = ⟨rx, .REGEX_PREFERRED, 0.70⟩ := by
  simp [resolveDisagreement, h]

/-- The classification computed inside `resolve` is `_classify_disagreement`
of the two normalized inputs. -/
theorem mileageResolve_disagreement_type (pm : Bool) (ml rx : Option String) :
    (mileageResolve pm ml rx none).disagreement_type =
      classifyDisagreement (mileageNormalize ml) (mileageNormalize rx) := rfl

/-- C2: whenever `resolve` (no manual override) classifies the pair as
MAJOR, the resolved value is the raw value of the `prefer_ml`-selected
source with the corresponding `{ML|REGEX}_PREFERRED` method; the confidence
is 0.70 when the preferred source's normalized value is present and 0.60
when the preferred source is absent, in which case the non-preferred raw
value is returned instead. -/
theorem resolve_major_uses_preferred_source
    (pm : Bool) (ml rx : Option String)
    (h : (mileageResolve pm ml rx none).disagreement_type = .MAJOR) :
    (mileageResolve pm ml rx none).resolved_value = (if pm then ml else rx) ∧
    (mileageResolve pm ml rx none).resolution_method =
      (if pm then .ML_PREFERRED else .REGEX_PREFERRED) ∧
    (mileageResolve pm ml rx none).confidence =
      (if (if pm then mileageNormalize ml else mileageNormalize rx).isSome
       then (0.70 : ℚ) else 0.60) ∧
    ((if pm then mileageNormalize ml else mileageNormalize rx) = none →
      (mileageResolve pm ml rx none).resolved_value = (if pm then rx else ml)) := by
  rw [mileageResolve_disagreement_type] at h
  obtain ⟨hml, hrx⟩ := classifyDisagreement_major_both_some h
  have hres : mileageResolve pm ml rx none =
      { ml_raw := ml, regex_raw := rx,
        normalized_ml := mileageNormalize ml, normalized_regex := mileageNormalize rx,
        disagreement_type := classifyDisagreement (mileageNormalize ml) (mileageNormalize rx),
        resolved_value := (resolveDisagreement pm ml rx (mileageNormalize ml)
          (mileageNormalize rx) (classifyDisagreement (mileageNormalize ml) (mileageNormalize rx))).value,
        resolution_method := (resolveDisagreement pm ml rx (mileageNormalize ml)
          (mileageNormalize rx) (classifyDisagreement (mileageNormalize ml) (mileageNormalize rx))).method,
        confidence := (resolveDisagreement pm ml rx (mileageNormalize ml)
          (mileageNormalize rx) (classifyDisagreement (mileageNormalize ml) (mileageNormalize rx))).confidence } := rfl
  cases pm with
  | true =>
    rw [hres]
    simp only [h, resolveDisagreement_major_prefMl hml]
    refine ⟨rfl, rfl, ?_, ?_⟩
    · simp [hml]
    · intro hc
      simp at hc
      rw [hc] at hml
      simp at hml
  | false =>
    rw [hres]
    simp only [h, resolveDisagreement_major_prefRx hrx]
    refine ⟨rfl, rfl, ?_, ?_⟩
    · simp [hrx]
    · intro hc
      simp at hc
      rw [hc] at hrx
      simp at hrx

/-- Witness for C2 at a concrete MAJOR pair. -/
theorem resolve_major_uses_preferred_source_witness :
    (mileageResolve true (some "150000 km") (some "90000 km") none).disagreement_type = .MAJOR ∧
    (mileageResolve true (some "150000 km") (some "90000 km") none).resolved_value =
      some "150000 km" ∧
    (mileageResolve true (some "150000 km") (some "90000 km") none).confidence = 0.70 := by
  have h : (mileageResolve true (some "150000 km") (some "90000 km") none).disagreement_type
      = .MAJOR := by decide
  refine ⟨h, ?_, ?_⟩
  · exact (resolve_major_uses_preferred_source true _ _ h).1
  · have hc := (resolve_major_uses_preferred_source true (some "150000 km") (some "90000 km") h).2.2.1
    have hs : (mileageNormalize (some "150000 km")).isSome = true := by decide
    rw [hc]
    simp [hs]

/-- C10: from `resolve`, a MAJOR classification forces both normalized
values to be present, so the preferred source always exists, the returned
confidence is exactly 0.70, and the 0.60 fallback branch of
`_resolve_disagreement` is unreachable. -/
theorem resolve_major_invariant
    (pm : Bool) (ml rx : Option String)
    (h : (mileageResolve pm ml rx none).disagreement_type = .MAJOR) :
    (mileageNormalize ml).isSome ∧ (mileageNormalize rx).isSome ∧
    (mileageResolve pm ml rx none).confidence = 0.70 := by
  rw [mileageResolve_disagreement_type] at h
  obtain ⟨hml, hrx⟩ := classifyDisagreement_major_both_some h
  refine ⟨hml, hrx, ?_⟩
  have hres : (mileageResolve pm ml rx none).confidence =
      (resolveDisagreement pm ml rx (mileageNormalize ml) (mileageNormalize rx)
        (classifyDisagreement (mileageNormalize ml) (mileageNormalize rx))).confidence := rfl
  rw [hres, h]
  cases pm with
  | true => rw [resolveDisagreement_major_prefMl hml]
  | false => rw [resolveDisagreement_major_prefRx hrx]

/-- Witness for C10 at a concrete MAJOR pair. -/
theorem resolve_major_invariant_witness :
    (mileageResolve false (some "100 km") (some "200 km") none).disagreement_type = .MAJOR ∧
    (mileageNormalize (some "100 km")).isSome ∧
    (mileageResolve false (some "100 km") (some "200 km") none).confidence = 0.70 := by
  have h : (mileageResolve false (some "100 km") (some "200 km") none).disagreement_type
      = .MAJOR := by decide
  exact ⟨h, (resolve_major_invariant false _ _ h).1, (resolve_major_invariant false _ _ h).2.2⟩

/-- C3: the one-sided MINOR_FORMATTING cases of the power resolver —
`resolve("151 kw", None)` yields the ML raw value with method ML_PREFERRED
and confidence 0.75, and `resolve(None, "151 kw")` yields method
REGEX_PREFERRED with confidence 0.80, for either setting of `prefer_ml`. -/
theorem power_resolve_one_sided (preferMl : Bool) :
    (powerResolve preferMl (some "151 kw") none none).resolved_value = some "151 kw" ∧
    (powerResolve preferMl (some "151 kw") none none).resolution_method = .ML_PREFERRED ∧
    (powerResolve preferMl (some "151 kw") none none).confidence = 0.75 ∧
    (powerResolve preferMl none (some "151 kw") none).resolution_method = .REGEX_PREFERRED ∧
    (powerResolve preferMl none (some "151 kw") none).confidence = 0.80 := by
  cases preferMl <;> exact ⟨rfl, rfl, rfl, rfl, rfl⟩

theorem bucketOf_nil (s : Nat) : bucketOf [] s = [] := rfl

theorem bucketOf_cons (s₀ : Nat) (g₀ : List RMatch) (tl : List (Nat × List RMatch)) (s : Nat) :
    bucketOf ((s₀, g₀) :: tl) s = if s₀ = s then g₀ else bucketOf tl s := by
  unfold bucketOf
  by_cases h : s₀ = s
  · rw [List.find?_cons_of_pos _ (by simp [h]), if_pos h]
  · rw [List.find?_cons_of_neg _ (by simp [h]), if_neg h]

theorem keysOf_insertByPosition (gs : List (Nat × List RMatch)) (m : RMatch) :
    keysOf (insertByPosition gs m) =
      if m.start ∈ keysOf gs then keysOf gs else keysOf gs ++ [m.start] := by
  induction gs with
  | nil => simp [keysOf, insertByPosition]
  | cons hd tl ih =>
    obtain ⟨s₀, g₀⟩ := hd
    by_cases h : s₀ = m.start
    · subst h
      simp [keysOf, insertByPosition]
    · have hne : ¬ m.start = s₀ := fun hc => h hc.symm
      simp only [insertByPosition, if_neg h, keysOf, List.map_cons]
      simp only [keysOf] at ih
      by_cases h2 : m.start ∈ tl.map Prod.fst
      · rw [if_pos (List.mem_cons_of_mem _ h2), ih, if_pos h2]
      · have : ¬ m.start ∈ s₀ :: tl.map Prod.fst := by
          intro hc
          rcases List.mem_cons.mp hc with hc | hc
          · exact hne hc
          · exact h2 hc
        rw [if_neg this, ih, if_neg h2, List.cons_append]

theorem bucketOf_insertByPosition (gs : List (Nat × List RMatch)) (m : RMatch) (s : Nat) :
    bucketOf (insertByPosition gs m) s =
      if s = m.start then bucketOf gs s ++ [m] else bucketOf gs s := by
  induction gs with
  | nil =>
    by_cases h : s = m.start
    · simp [insertByPosition, bucketOf_cons, bucketOf_nil, h]
    · simp [insertByPosition, bucketOf_cons, bucketOf_nil, h, Ne.symm h]
  | cons hd tl ih =>
    obtain ⟨s₀, g₀⟩ := hd
    by_cases h : s₀ = m.start
    · subst h
      simp only [insertByPosition, if_pos rfl]
      by_cases h2 : m.start = s
      · subst h2
        simp [bucketOf_cons]
      · simp [bucketOf_cons, h2, Ne.symm h2]
    · simp only [insertByPosition, if_neg h]
      by_cases h2 : s₀ = s
      · subst h2
        simp [bucketOf_cons, h]
      · simp [bucketOf_cons, h2, ih]

theorem foldl_insertByPosition_keys (ms : List RMatch) :
    ∀ gs, keysOf (ms.foldl insertByPosition gs) =
      ms.foldl (fun acc m => if m.start ∈ acc then acc else acc ++ [m.start]) (keysOf gs) := by
  induction ms with
  | nil => intro gs; rfl
  | cons m ms ih =>
    intro gs
    simp only [List.foldl_cons]
    rw [ih, keysOf_insertByPosition]

theorem firstOccStarts_eq_keys (ms : List RMatch) :
    firstOccStarts ms = keysOf (groupByPosition ms) := by
  show firstOccStarts ms = keysOf (List.foldl insertByPosition [] ms)
  rw [foldl_insertByPosition_keys]
  rfl

theorem foldl_insertByPosition_bucket (ms : List RMatch) :
    ∀ gs s, bucketOf (ms.foldl insertByPosition gs) s =
      bucketOf gs s ++ ms.filter (fun m => m.start = s) := by
  induction ms with
  | nil => intro gs s; simp
  | cons m ms ih =>
    intro gs s
    simp only [List.foldl_cons]
    rw [ih, bucketOf_insertByPosition]
    by_cases h : s = m.start
    · simp [h, List.filter_cons]
    · simp [h, Ne.symm h, List.filter_cons]

theorem groupByPosition_bucket (ms : List RMatch) (s : Nat) :
    bucketOf (groupByPosition ms) s = ms.filter (fun m => m.start = s) := by
  show bucketOf (List.foldl insertByPosition [] ms) s = _
  rw [foldl_insertByPosition_bucket, bucketOf_nil, List.nil_append]

theorem keysOf_groupByPosition_nodup (ms : List RMatch) :
    (keysOf (groupByPosition ms)).Nodup := by
  have step : ∀ (gs : List (Nat × List RMatch)) (m : RMatch),
      (keysOf gs).Nodup → (keysOf (insertByPosition gs m)).Nodup := by
    intro gs m h
    rw [keysOf_insertByPosition]
    by_cases hm : m.start ∈ keysOf gs
    · rw [if_pos hm]; exact h
    · rw [if_neg hm]
      refine List.Nodup.append h (List.nodup_singleton _) ?_
      intro a ha hb
      rw [List.mem_singleton] at hb
      subst hb
      exact hm ha
  have main : ∀ (l : List RMatch) (gs : List (Nat × List RMatch)),
      (keysOf gs).Nodup → (keysOf (l.foldl insertByPosition gs)).Nodup := by
    intro l
    induction l with
    | nil => intro gs h; exact h
    | cons m rest ih => intro gs h; exact ih _ (step gs m h)
  exact main ms [] (by simp [keysOf])

theorem filterMap_groups_eq_keys (f : Nat × List RMatch → Option RMatch) :
    ∀ gs : List (Nat × List RMatch), (keysOf gs).Nodup →
      gs.filterMap f = (keysOf gs).filterMap (fun s => f (s, bucketOf gs s)) := by
  intro gs
  induction gs with
  | nil => intro _; rfl
  | cons hd tl ih =>
    obtain ⟨s₀, g₀⟩ := hd
    intro hnd
    have hnotin : s₀ ∉ keysOf tl := by
      simp only [keysOf, List.map_cons] at hnd
      exact (List.nodup_cons.mp hnd).1
    have hnd2 : (keysOf tl).Nodup := by
      simp only [keysOf, List.map_cons] at hnd
      exact (List.nodup_cons.mp hnd).2
    have hhead : bucketOf ((s₀, g₀) :: tl) s₀ = g₀ := by
      rw [bucketOf_cons, if_pos rfl]
    have htail : (keysOf tl).filterMap (fun s => f (s, bucketOf ((s₀, g₀) :: tl) s)) =
        (keysOf tl).filterMap (fun s => f (s, bucketOf tl s)) := by
      apply List.filterMap_congr
      intro s hs
      have hne : ¬ s₀ = s := fun hc => hnotin (by rw [hc]; exact hs)
      rw [bucketOf_cons, if_neg hne]
    show List.filterMap f ((s₀, g₀) :: tl) =
      List.filterMap (fun s => f (s, bucketOf ((s₀, g₀) :: tl) s)) (s₀ :: keysOf tl)
    rw [List.filterMap_cons, List.filterMap_cons, hhead, htail, ih hnd2]

theorem insertSortedByStart_perm (m : RMatch) (l : List RMatch) :
    (insertSortedByStart m l).Perm (m :: l) := by
  induction l with
  | nil => exact List.Perm.refl _
  | cons x rest ih =>
    by_cases h : x.start ≤ m.start
    · simp only [insertSortedByStart, if_pos h]
      exact (ih.cons x).trans (List.Perm.swap m x rest)
    · simp only [insertSortedByStart, if_neg h]
      exact List.Perm.refl _

theorem foldl_insertSorted_perm (l : List RMatch) :
    ∀ acc : List RMatch,
      (l.foldl (fun a m => insertSortedByStart m a) acc).Perm (acc ++ l) := by
  induction l with
  | nil => intro acc; simp
  | cons m rest ih =>
    intro acc
    simp only [List.foldl_cons]
    refine ((ih _).trans ?_)
    refine ((insertSortedByStart_perm m acc).append_right rest).trans ?_
    exact List.perm_middle.symm

theorem sortByStart_perm (l : List RMatch) : (sortByStart l).Perm l := by
  simpa using foldl_insertSorted_perm l []

theorem bestOf_mem (x : RMatch) (l : List RMatch) : bestOf x l ∈ x :: l := by
  induction l generalizing x with
  | nil => simp [bestOf]
  | cons y rest ih =>
    have hz := ih (if confidenceOrder x.confidence < confidenceOrder y.confidence then y else x)
    simp only [bestOf]
    rcases List.mem_cons.mp hz with hz | hz
    · rw [hz]
      by_cases h : confidenceOrder x.confidence < confidenceOrder y.confidence
      · simp [h]
      · simp [h]
    · simp [List.mem_cons, hz]

theorem mem_firstOccStarts (ms : List RMatch) (s : Nat) :
    s ∈ firstOccStarts ms ↔ s ∈ ms.map (fun m => m.start) := by
  have main : ∀ (l : List RMatch) (acc : List Nat),
      s ∈ l.foldl (fun acc m => if m.start ∈ acc then acc else acc ++ [m.start]) acc ↔
        s ∈ acc ∨ s ∈ l.map (fun m => m.start) := by
    intro l
    induction l with
    | nil => intro acc; simp
    | cons m rest ih =>
      intro acc
      simp only [List.foldl_cons, List.map_cons, List.mem_cons]
      rw [ih]
      by_cases h : m.start ∈ acc
      · rw [if_pos h]
        constructor
        · rintro (h1 | h1)
          · exact Or.inl h1
          · exact Or.inr (Or.inr h1)
        · rintro (h1 | h1 | h1)
          · exact Or.inl h1
          · exact Or.inl (h1 ▸ h)
          · exact Or.inr h1
      · rw [if_neg h]
        simp only [List.mem_append, List.mem_singleton]
        tauto
  have := main ms []
  simp only [List.not_mem_nil, false_or] at this
  exact this

theorem filter_start_ne_nil (ms : List RMatch) (k : Nat)
    (h : k ∈ ms.map (fun m => m.start)) :
    ms.filter (fun m => m.start = k) ≠ [] := by
  rcases List.mem_map.mp h with ⟨m, hm, hk⟩
  intro hc
  have hmem : m ∈ ms.filter (fun m => m.start = k) :=
    List.mem_filter.mpr ⟨hm, by simp [hk]⟩
  rw [hc] at hmem
  exact absurd hmem (List.not_mem_nil m)

theorem countP_filterMap_keys (ms : List RMatch) (keys : List Nat)
    (hnd : keys.Nodup)
    (hne : ∀ k ∈ keys, ms.filter (fun m => m.start = k) ≠ []) (s : Nat) :
    ((keys.filterMap (fun k =>
        match ms.filter (fun m => m.start = k) with
        | [] => none
        | x :: r => some (bestOf x r))).countP (fun m => m.start = s))
      = if s ∈ keys then 1 else 0 := by
  induction keys with
  | nil => simp
  | cons k rest ih =>
    have hk := hne k (List.mem_cons_self k rest)
    have hnotin : k ∉ rest := (List.nodup_cons.mp hnd).1
    have hnd2 : rest.Nodup := (List.nodup_cons.mp hnd).2
    have hne2 : ∀ k ∈ rest, ms.filter (fun m => m.start = k) ≠ [] :=
      fun k hk => hne k (List.mem_cons_of_mem _ hk)
    obtain ⟨x, r, hxr⟩ : ∃ x r, ms.filter (fun m => m.start = k) = x :: r := by
      cases hf : ms.filter (fun m => m.start = k) with
      | nil => exact absurd hf hk
      | cons x r => exact ⟨x, r, rfl⟩
    have hbest : (bestOf x r).start = k := by
      have hmem : bestOf x r ∈ ms.filter (fun m => m.start = k) := by
        rw [hxr]; exact bestOf_mem x r
      have := (List.mem_filter.mp hmem).2
      simpa using this
    rw [List.filterMap_cons, hxr]
    simp only [List.countP_cons]
    rw [ih hnd2 hne2]
    by_cases h : s = k
    · subst h
      rw [if_neg hnotin, if_pos (List.mem_cons_self s rest)]
      simp [hbest]
    · have hne3 : ¬ ((bestOf x r).start = s) := by rw [hbest]; exact fun hc => h hc.symm
      simp [List.mem_cons, h, hne3]

/-- C4 (amended): `_deduplicate_matches` keeps exactly one candidate per
start position — the count of retained candidates at each start is 1 for
occupied starts and 0 otherwise — and the retained candidate is the first
candidate of maximal confidence tier at that start (`specDedupByConfidence`);
the span length of the candidates plays no role in the selection. -/
theorem deduplicate_keeps_first_max_confidence (ms : List RMatch) :
    deduplicateMatches ms = specDedupByConfidence ms ∧
    ∀ s, (deduplicateMatches ms).countP (fun m => m.start = s) =
      if s ∈ ms.map (fun m => m.start) then 1 else 0 := by
  have heq : deduplicateMatches ms = specDedupByConfidence ms := by
    cases ms with
    | nil => rfl
    | cons m0 rest =>
      show sortByStart ((groupByPosition (m0 :: rest)).filterMap (fun g =>
          match g.2 with | [] => none | x :: r => some (bestOf x r))) =
        sortByStart ((firstOccStarts (m0 :: rest)).filterMap (fun s =>
          match (m0 :: rest).filter (fun m => m.start = s) with
          | [] => none | x :: r => some (bestOf x r)))
      rw [filterMap_groups_eq_keys _ _ (keysOf_groupByPosition_nodup (m0 :: rest)),
          firstOccStarts_eq_keys]
      congr 1
      apply List.filterMap_congr
      intro s _
      rw [groupByPosition_bucket]
  refine ⟨heq, ?_⟩
  intro s
  rw [heq]
  show (sortByStart _).countP _ = _
  rw [(sortByStart_perm _).countP_eq]
  have hnd : (firstOccStarts ms).Nodup := by
    rw [firstOccStarts_eq_keys]; exact keysOf_groupByPosition_nodup ms
  have hne : ∀ k ∈ firstOccStarts ms, ms.filter (fun m => m.start = k) ≠ [] := by
    intro k hk
    exact filter_start_ne_nil ms k ((mem_firstOccStarts ms k).mp hk)
  rw [countP_filterMap_keys ms (firstOccStarts ms) hnd hne s]
  by_cases h : s ∈ ms.map (fun m => m.start)
  · rw [if_pos ((mem_firstOccStarts ms s).mpr h), if_pos h]
  · rw [if_neg (fun hc => h ((mem_firstOccStarts ms s).mp hc)), if_neg h]

/-- C4 counterexample: on `dedupShortFirst`, `_deduplicate_matches` keeps the
first (shorter) candidate, not the longest match at that start position, so
the deduplication does not implement the claimed longest-match rule. -/
theorem deduplicate_not_longest_counterexample :
    deduplicateMatches dedupShortFirst ≠ specDedupLongest dedupShortFirst ∧
    deduplicateMatches dedupShortFirst =
      [{ text := "150t", value := 150000, start := 7, stop := 11,
         confidence := .medium, pattern_type := "standard" }] ∧
    specDedupLongest dedupShortFirst =
      [{ text := "150tis km", value := 150000, start := 7, stop := 16,
         confidence := .medium, pattern_type := "standard" }] := by
  refine ⟨?_, by decide, by decide⟩
  decide

/-! ## Helper lemmas about the tier candidate lists and deduplication -/

theorem deduplicateMatches_eq_filterStarts (ms : List RMatch) :
    deduplicateMatches ms = sortByStart ((firstOccStarts ms).filterMap (fun s =>
      match ms.filter (fun m => m.start = s) with
      | [] => none
      | x :: r => some (bestOf x r))) := by
  cases ms with
  | nil => rfl
  | cons m0 rest =>
    show sortByStart ((groupByPosition (m0 :: rest)).filterMap (fun g =>
        match g.2 with | [] => none | x :: r => some (bestOf x r))) = _
    rw [filterMap_groups_eq_keys _ _ (keysOf_groupByPosition_nodup (m0 :: rest)),
        firstOccStarts_eq_keys]
    congr 1
    apply List.filterMap_congr
    intro s _
    rw [groupByPosition_bucket]

theorem mem_of_mem_deduplicate {m : RMatch} {ms : List RMatch}
    (h : m ∈ deduplicateMatches ms) : m ∈ ms := by
  rw [deduplicateMatches_eq_filterStarts] at h
  have h1 : m ∈ (firstOccStarts ms).filterMap (fun s =>
      match ms.filter (fun m => m.start = s) with
      | [] => none
      | x :: r => some (bestOf x r)) := (sortByStart_perm _).mem_iff.mp h
  rcases List.mem_filterMap.mp h1 with ⟨s, _, hf⟩
  cases hfl : ms.filter (fun m => m.start = s) with
  | nil =>
    rw [hfl] at hf
    simp at hf
  | cons x r =>
    rw [hfl] at hf
    have hm : m = bestOf x r := (Option.some.inj hf).symm
    have hmem : m ∈ ms.filter (fun m => m.start = s) := by
      rw [hfl, hm]
      exact bestOf_mem x r
    exact (List.mem_filter.mp hmem).1

theorem yearTierCandidates_spec {cs : List Char} {pats : List (Nat → Option PMatch)}
    {conf : Confidence} {ptype : String} {excluded : List String} {m : RMatch}
    (h : m ∈ yearTierCandidates cs pats conf ptype excluded) :
    m.confidence = conf ∧ m.text ∉ excluded ∧ 1990 ≤ m.value ∧ m.value ≤ 2026 ∧
      m.value = digitsToNat m.text.data := by
  unfold yearTierCandidates at h
  rcases List.mem_flatMap.mp h with ⟨p, _, hm⟩
  rcases List.mem_filterMap.mp hm with ⟨pm, _, hf⟩
  dsimp only at hf
  split at hf
  · rename_i hcond
    have hrec := Option.some.inj hf
    subst hrec
    exact ⟨rfl, hcond.1, hcond.2.1, hcond.2.2, rfl⟩
  · exact absurd hf (by simp)

theorem mileageCandidatesOf_spec {excl : List Nat} {scan : List MScanItem}
    {conf : Confidence} {ptype : String} {m : RMatch}
    (h : m ∈ mileageCandidatesOf excl scan conf ptype) : m.confidence = conf := by
  unfold mileageCandidatesOf at h
  rcases List.mem_filterMap.mp h with ⟨it, _, hf⟩
  split at hf
  · have hrec := Option.some.inj hf
    subst hrec
    rfl
  · exact absurd hf (by simp)

/-- The tier actually used by `find_years` on a given text. -/
theorem findYears_cases (text : String) (m : RMatch)
    (hm : m ∈ findYears text) :
    m ∈ highYearCands text.data ∨ m ∈ medYearCands text.data ∨ m ∈ lowYearCands text.data := by
  have hm2 : m ∈ (if (if (highYearCands text.data).isEmpty
        then medYearCands text.data else highYearCands text.data).isEmpty
      then lowYearCands text.data
      else (if (highYearCands text.data).isEmpty
        then medYearCands text.data else highYearCands text.data)) :=
    mem_of_mem_deduplicate hm
  by_cases hA : (highYearCands text.data).isEmpty
  · rw [if_pos hA] at hm2
    by_cases hB : (medYearCands text.data).isEmpty
    · rw [if_pos hB] at hm2
      exact Or.inr (Or.inr hm2)
    · rw [if_neg hB] at hm2
      exact Or.inr (Or.inl hm2)
  · rw [if_neg hA] at hm2
    rw [if_neg hA] at hm2
    exact Or.inl hm2

/-- C6 counterexample: `stkServisText` contains both `"rok výroby 2015"` and
`"STK do 2027"`, yet `find_years` returns no match at all — in particular no
match with text `"2015"` — because `"servis 2015"` puts `"2015"` into the
exclusion set, which suppresses the production-year match in every tier. -/
theorem find_years_excluded_2015_counterexample :
    strContains stkServisText "rok výroby 2015" = true ∧
    strContains stkServisText "STK do 2027" = true ∧
    findYears stkServisText = [] := by
  refine ⟨by decide, by decide, by decide⟩


theorem highYearCands_conf {cs : List Char} {m : RMatch}
    (h : m ∈ highYearCands cs) : m.confidence = .high := by
  unfold highYearCands at h
  exact (yearTierCandidates_spec h).1

theorem medYearCands_conf {cs : List Char} {m : RMatch}
    (h : m ∈ medYearCands cs) : m.confidence = .medium := by
  unfold medYearCands at h
  exact (yearTierCandidates_spec h).1

theorem lowYearCands_conf {cs : List Char} {m : RMatch}
    (h : m ∈ lowYearCands cs) : m.confidence = .low := by
  unfold lowYearCands at h
  exact (yearTierCandidates_spec h).1

/-! ## Matcher inversion lemmas and the year-site existence argument -/

theorem getElem?_drop_eq {cs ds : List Char} {i : Nat} (h : cs.drop i = ds) (j : Nat) :
    cs[i + j]? = ds[j]? := by
  rw [← List.getElem?_drop, h]

theorem litCI_shift {cs ds : List Char} {i : Nat} (h : cs.drop i = ds)
    (lit : List Char) : ∀ j, litCI cs lit (i + j) = (litCI ds lit j).map (i + ·) := by
  induction lit with
  | nil => intro j; rfl
  | cons c rest ih =>
    intro j
    simp only [litCI]
    rw [getElem?_drop_eq h]
    cases ds[j]? with
    | none => rfl
    | some d =>
      by_cases hl : lowerChar d = c
      · simp only [if_pos hl]
        exact ih (j + 1)
      · simp only [if_neg hl]; rfl

theorem runEnd_shift {cs ds : List Char} {i : Nat} (h : cs.drop i = ds)
    (f : Char → Bool) (j : Nat) : runEnd cs f (i + j) = i + runEnd ds f j := by
  unfold runEnd
  have hd : cs.drop (i + j) = ds.drop j := by
    rw [← h, List.drop_drop]
  rw [hd]
  omega

theorem downFrom_shift (i hi lo : Nat) :
    downFrom (i + hi) (i + lo) = (downFrom hi lo).map (i + ·) := by
  unfold downFrom
  rw [List.map_reverse]
  congr 1
  rw [show i + hi + 1 - (i + lo) = hi + 1 - lo by omega]
  exact (List.map_add_range' i lo (hi + 1 - lo) 1).symm

theorem firstSomeK_rel {i : Nat} {k kd : K} (hk : KRel i k kd) (js : List Nat) :
    firstSomeK (fun j => k (i + j)) js = (firstSomeK kd js).map (shiftPM i) := by
  induction js with
  | nil => rfl
  | cons j rest ih =>
    simp only [firstSomeK]
    rw [hk j]
    cases kd j with
    | some pm => rfl
    | none => simpa using ih

theorem firstSomeK_map (k : K) (i : Nat) (js : List Nat) :
    firstSomeK k (js.map (i + ·)) = firstSomeK (fun j => k (i + j)) js := by
  induction js with
  | nil => rfl
  | cons j rest ih => simp only [List.map_cons, firstSomeK]; rw [ih]

theorem kRel_litM {cs ds : List Char} {i : Nat} (h : cs.drop i = ds) (lit : String)
    {k kd : K} (hk : KRel i k kd) : KRel i (litM cs lit k) (litM ds lit kd) := by
  intro j
  unfold litM
  rw [litCI_shift h lit.data j]
  cases litCI ds lit.data j with
  | none => rfl
  | some j2 => exact hk j2

theorem kRel_classPlusM {cs ds : List Char} {i : Nat} (h : cs.drop i = ds)
    (f : Char → Bool) {k kd : K} (hk : KRel i k kd) :
    KRel i (classPlusM cs f k) (classPlusM ds f kd) := by
  intro j
  unfold classPlusM
  rw [runEnd_shift h f j, show i + j + 1 = i + (j + 1) from rfl, downFrom_shift,
      firstSomeK_map, firstSomeK_rel hk]

theorem kRel_classStarM {cs ds : List Char} {i : Nat} (h : cs.drop i = ds)
    (f : Char → Bool) {k kd : K} (hk : KRel i k kd) :
    KRel i (classStarM cs f k) (classStarM ds f kd) := by
  intro j
  unfold classStarM
  rw [runEnd_shift h f j, downFrom_shift, firstSomeK_map, firstSomeK_rel hk]

theorem kRel_classOptM {cs ds : List Char} {i : Nat} (h : cs.drop i = ds)
    (f : Char → Bool) {k kd : K} (hk : KRel i k kd) :
    KRel i (classOptM cs f k) (classOptM ds f kd) := by
  intro j
  unfold classOptM
  rw [getElem?_drop_eq h]
  cases ds[j]? with
  | none => exact hk j
  | some c =>
    dsimp only
    by_cases hf : f c
    · rw [if_pos hf, if_pos hf,
          show i + j + 1 = i + (j + 1) from rfl, hk (j + 1), hk j]
      cases kd (j + 1) with
      | some pm => rfl
      | none => cases kd j <;> rfl
    · rw [if_neg hf, if_neg hf]; exact hk j

theorem kRel_altM_nil {i : Nat} {k kd : K} : KRel i (altM [] k) (altM [] kd) :=
  fun _ => rfl

theorem kRel_altM_cons {i : Nat} {k kd : K} {p q : M} {ps qs : List M}
    (h1 : KRel i (p k) (q kd)) (h2 : KRel i (altM ps k) (altM qs kd)) :
    KRel i (altM (p :: ps) k) (altM (q :: qs) kd) := by
  intro j
  show ((p k (i + j)).orElse fun _ => altM ps k (i + j)) =
    (((q kd j).orElse fun _ => altM qs kd j).map (shiftPM i))
  rw [h1 j, h2 j]
  cases q kd j with
  | some pm => rfl
  | none => cases altM qs kd j <;> rfl

theorem digitsEnd_shift {cs ds : List Char} {i : Nat} (h : cs.drop i = ds) :
    ∀ n j, digitsEnd cs n (i + j) = (digitsEnd ds n j).map (i + ·) := by
  intro n
  induction n with
  | zero => intro j; rfl
  | succ n ih =>
    intro j
    simp only [digitsEnd]
    rw [getElem?_drop_eq h]
    cases ds[j]? with
    | none => rfl
    | some c =>
      by_cases hc : c.isDigit
      · simp only [if_pos hc]; exact ih (j + 1)
      · simp only [if_neg hc]; rfl

theorem kRel_cap4 {cs ds : List Char} {i : Nat} (h : cs.drop i = ds)
    {suffix sufd : M}
    (hs : ∀ (k kd : K), KRel i k kd → KRel i (suffix k) (sufd kd)) :
    KRel i (cap4 cs suffix) (cap4 ds sufd) := by
  intro j
  unfold cap4
  rw [digitsEnd_shift h 4 j]
  cases digitsEnd ds 4 j with
  | none => rfl
  | some ge =>
    have hrel : KRel i (fun me => some (⟨i + j, i + ge, me⟩ : PMatch))
        (fun me => some (⟨j, ge, me⟩ : PMatch)) := fun _ => rfl
    exact hs _ _ hrel ge

theorem yearHigh1At_rel {cs ds : List Char} {i : Nat} (h : cs.drop i = ds) :
    KRel i (yearHigh1At cs) (yearHigh1At ds) := by
  have k0 : KRel i (cap4 cs idM) (cap4 ds idM) :=
    kRel_cap4 h (fun _ _ hk => hk)
  have k1 := kRel_classStarM h isWsChar k0
  have k2 := kRel_classOptM h isColonDot k1
  have k3 := kRel_classStarM h isWsChar k2
  show KRel i
    (altM [seqsM [litM cs "rok", classPlusM cs isWsChar, litM cs "výroby"],
           seqsM [litM cs "r", classOptM cs isDotChar, classOptM cs isWsChar,
                  litM cs "v", classOptM cs isDotChar],
           litM cs "výroba",
           litM cs "vyrobeno"]
      (classStarM cs isWsChar (classOptM cs isColonDot (classStarM cs isWsChar (cap4 cs idM)))))
    (altM [seqsM [litM ds "rok", classPlusM ds isWsChar, litM ds "výroby"],
           seqsM [litM ds "r", classOptM ds isDotChar, classOptM ds isWsChar,
                  litM ds "v", classOptM ds isDotChar],
           litM ds "výroba",
           litM ds "vyrobeno"]
      (classStarM ds isWsChar (classOptM ds isColonDot (classStarM ds isWsChar (cap4 ds idM)))))
  refine kRel_altM_cons ?_ (kRel_altM_cons ?_ (kRel_altM_cons ?_
    (kRel_altM_cons ?_ kRel_altM_nil)))
  · exact kRel_litM h "rok" (kRel_classPlusM h isWsChar (kRel_litM h "výroby" k3))
  · exact kRel_litM h "r" (kRel_classOptM h isDotChar (kRel_classOptM h isWsChar
      (kRel_litM h "v" (kRel_classOptM h isDotChar k3))))
  · exact kRel_litM h "výroba" k3
  · exact kRel_litM h "vyrobeno" k3

theorem yearHigh1At_phrase_eval (rest : List Char) :
    yearHigh1At ("rok výroby 2015".data ++ rest) 0 = some ⟨11, 15, 15⟩ := by
  simp [yearHigh1At, seqsM, seqM, idM, altM, litM, litCI, classPlusM, classStarM,
        classOptM, cap4, digitsEnd, runEnd, downFrom, firstSomeK, lowerChar,
        czechCasePairs, List.find?, isWsChar, isColonDot, List.takeWhile, Option.orElse]

theorem yearHigh1At_at_site {cs rest : List Char} {i : Nat}
    (h : cs.drop i = "rok výroby 2015".data ++ rest) :
    yearHigh1At cs i = some ⟨i + 11, i + 15, i + 15⟩ := by
  have h1 := yearHigh1At_rel h 0
  rw [yearHigh1At_phrase_eval rest] at h1
  simpa [shiftPM] using h1

theorem lowerChar_of_isDigit {d : Char} (h : d.isDigit = true) : lowerChar d = d := by
  have hall : ∀ p ∈ czechCasePairs, p.1.isDigit = false := by decide
  have hfind : czechCasePairs.find? (fun p => p.1 = d) = none := by
    apply List.find?_eq_none.mpr
    intro p hp
    simp only [decide_eq_true_eq]
    intro hc
    have := hall p hp
    rw [hc, h] at this
    exact Bool.true_eq_false.mp this
  have hb : 48 ≤ d.toNat ∧ d.toNat ≤ 57 := by simpa [Char.isDigit] using h
  unfold lowerChar
  rw [hfind]
  show d.toLower = d
  unfold Char.toLower
  rw [if_neg (by omega)]

theorem litCI_region {cs lit : List Char} :
    ∀ {i j : Nat}, litCI cs lit i = some j →
      i ≤ j ∧ ∀ t, i ≤ t → t < j → ∃ c, cs[t]? = some c ∧ lowerChar c ∈ lit := by
  induction lit with
  | nil =>
    intro i j h
    simp only [litCI, Option.some.injEq] at h
    subst h
    exact ⟨Nat.le_refl i, fun t h1 h2 => absurd h2 (by omega)⟩
  | cons c rest ih =>
    intro i j h
    simp only [litCI] at h
    cases hd : cs[i]? with
    | none => rw [hd] at h; exact absurd h (by simp)
    | some d =>
      rw [hd] at h
      dsimp only at h
      by_cases hl : lowerChar d = c
      · rw [if_pos hl] at h
        obtain ⟨h1, h2⟩ := ih h
        refine ⟨by omega, ?_⟩
        intro t ht1 ht2
        by_cases hti : t = i
        · subst hti
          exact ⟨d, hd, by rw [hl]; exact List.mem_cons_self c rest⟩
        · obtain ⟨c2, hc2, hm2⟩ := h2 t (by omega) ht2
          exact ⟨c2, hc2, List.mem_cons_of_mem c hm2⟩
      · rw [if_neg hl] at h
        exact absurd h (by simp)

theorem litCI_nodigit {cs lit : List Char} {i j : Nat}
    (hnd : ∀ c ∈ lit, c.isDigit = false) (h : litCI cs lit i = some j) :
    ∀ t, i ≤ t → t < j → NoDigitAt cs t := by
  intro t h1 h2 c hc
  obtain ⟨c2, hc2, hm⟩ := (litCI_region h).2 t h1 h2
  rw [hc] at hc2
  have hc2 := Option.some.inj hc2
  subst hc2
  by_cases hdig : c.isDigit
  · rw [lowerChar_of_isDigit hdig] at hm
    exact absurd (hnd c hm) (by simp [hdig])
  · simpa using hdig

theorem takeWhile_pos {f : Char → Bool} :
    ∀ (l : List Char) (n : Nat), n < (l.takeWhile f).length →
      ∃ c, l[n]? = some c ∧ f c = true := by
  intro l
  induction l with
  | nil => intro n h; simp [List.takeWhile] at h
  | cons c rest ih =>
    intro n h
    by_cases hf : f c
    · rw [List.takeWhile_cons_of_pos hf] at h
      cases n with
      | zero => exact ⟨c, by simp, hf⟩
      | succ n =>
        simp only [List.length_cons, Nat.succ_lt_succ_iff] at h
        simpa using ih n h
    · rw [List.takeWhile_cons_of_neg hf] at h
      simp at h

theorem runEnd_chars {cs : List Char} {f : Char → Bool} {i t : Nat}
    (h1 : i ≤ t) (h2 : t < runEnd cs f i) : ∃ c, cs[t]? = some c ∧ f c = true := by
  unfold runEnd at h2
  obtain ⟨c, hc, hf⟩ := takeWhile_pos (f := f) (cs.drop i) (t - i) (by omega)
  rw [List.getElem?_drop] at hc
  rw [show i + (t - i) = t by omega] at hc
  exact ⟨c, hc, hf⟩

theorem mem_downFrom {hi lo j : Nat} (h : j ∈ downFrom hi lo) : lo ≤ j ∧ j ≤ hi := by
  unfold downFrom at h
  rw [List.mem_reverse] at h
  obtain ⟨q, hq, hj⟩ := List.mem_range'.mp h
  omega

theorem firstSomeK_spec {k : K} {pm : PMatch} :
    ∀ {js : List Nat}, firstSomeK k js = some pm → ∃ j ∈ js, k j = some pm := by
  intro js
  induction js with
  | nil => intro h; simp [firstSomeK] at h
  | cons j rest ih =>
    intro h
    simp only [firstSomeK] at h
    cases hk : k j with
    | some pm2 =>
      rw [hk] at h
      refine ⟨j, List.mem_cons_self j rest, ?_⟩
      rw [hk]
      exact h
    | none =>
      rw [hk] at h
      simp only [Option.orElse] at h
      obtain ⟨j2, hj2, hk2⟩ := ih h
      exact ⟨j2, List.mem_cons_of_mem j hj2, hk2⟩

theorem altM_spec {ps : List M} {k : K} {i : Nat} {pm : PMatch}
    (h : altM ps k i = some pm) : ∃ p ∈ ps, p k i = some pm := by
  induction ps with
  | nil => simp [altM] at h
  | cons p rest ih =>
    have h2 : ((p k i).orElse fun _ => altM rest k i) = some pm := h
    cases hp : p k i with
    | some pm2 =>
      rw [hp] at h2
      refine ⟨p, List.mem_cons_self p rest, ?_⟩
      rw [hp]
      exact h2
    | none =>
      rw [hp] at h2
      simp only [Option.orElse] at h2
      obtain ⟨q, hq, hqk⟩ := ih h2
      exact ⟨q, List.mem_cons_of_mem p hq, hqk⟩

theorem digitsEnd_spec {cs : List Char} :
    ∀ {n i j : Nat}, digitsEnd cs n i = some j →
      j = i + n ∧ ∀ t, i ≤ t → t < j → ∃ c, cs[t]? = some c ∧ c.isDigit = true := by
  intro n
  induction n with
  | zero =>
    intro i j h
    simp only [digitsEnd, Option.some.injEq] at h
    subst h
    exact ⟨rfl, fun t h1 h2 => absurd h2 (by omega)⟩
  | succ n ih =>
    intro i j h
    simp only [digitsEnd] at h
    cases hd : cs[i]? with
    | none => rw [hd] at h; exact absurd h (by simp)
    | some c =>
      rw [hd] at h
      dsimp only at h
      by_cases hc : c.isDigit
      · rw [if_pos hc] at h
        obtain ⟨h1, h2⟩ := ih h
        refine ⟨by omega, ?_⟩
        intro t ht1 ht2
        by_cases hti : t = i
        · subst hti; exact ⟨c, hd, hc⟩
        · exact h2 t (by omega) ht2
      · rw [if_neg hc] at h
        exact absurd h (by simp)

theorem kSafe_litM {cs : List Char} {lit : String} {k : K}
    (hnd : ∀ c ∈ lit.data, c.isDigit = false) (hk : KSafe cs k) :
    KSafe cs (litM cs lit k) := by
  intro i pm h
  unfold litM at h
  cases hl : litCI cs lit.data i with
  | none => rw [hl] at h; exact absurd h (by simp)
  | some j =>
    rw [hl] at h
    have hij := (litCI_region hl).1
    have hps := hk j pm h
    obtain ⟨h1, h2, h3, h4, h5⟩ := hps
    refine ⟨by omega, h2, h3, ?_, h5⟩
    intro t ht1 ht2
    by_cases hc : t < j
    · exact litCI_nodigit hnd hl t ht1 hc
    · exact h4 t (by omega) ht2

theorem kSafe_classPlusM {cs : List Char} {f : Char → Bool} {k : K}
    (hnd : ∀ c, f c = true → c.isDigit = false) (hk : KSafe cs k) :
    KSafe cs (classPlusM cs f k) := by
  intro i pm h
  unfold classPlusM at h
  obtain ⟨j, hj, hkj⟩ := firstSomeK_spec h
  have hb := mem_downFrom hj
  obtain ⟨h1, h2, h3, h4, h5⟩ := hk j pm hkj
  refine ⟨by omega, h2, h3, ?_, h5⟩
  intro t ht1 ht2
  by_cases hc : t < j
  · have hr1 : i ≤ t := by omega
    have hr2 : t < runEnd cs f i := by omega
    obtain ⟨c, hcc, hfc⟩ := runEnd_chars hr1 hr2
    intro c2 hc2
    rw [hcc] at hc2
    have := Option.some.inj hc2
    subst this
    exact hnd _ hfc
  · exact h4 t (by omega) ht2

theorem kSafe_classStarM {cs : List Char} {f : Char → Bool} {k : K}
    (hnd : ∀ c, f c = true → c.isDigit = false) (hk : KSafe cs k) :
    KSafe cs (classStarM cs f k) := by
  intro i pm h
  unfold classStarM at h
  obtain ⟨j, hj, hkj⟩ := firstSomeK_spec h
  have hb := mem_downFrom hj
  obtain ⟨h1, h2, h3, h4, h5⟩ := hk j pm hkj
  refine ⟨by omega, h2, h3, ?_, h5⟩
  intro t ht1 ht2
  by_cases hc : t < j
  · have hr1 : i ≤ t := by omega
    have hr2 : t < runEnd cs f i := by omega
    obtain ⟨c, hcc, hfc⟩ := runEnd_chars hr1 hr2
    intro c2 hc2
    rw [hcc] at hc2
    have := Option.some.inj hc2
    subst this
    exact hnd _ hfc
  · exact h4 t (by omega) ht2

theorem kSafe_classOptM {cs : List Char} {f : Char → Bool} {k : K}
    (hnd : ∀ c, f c = true → c.isDigit = false) (hk : KSafe cs k) :
    KSafe cs (classOptM cs f k) := by
  intro i pm h
  unfold classOptM at h
  cases hd : cs[i]? with
  | none => rw [hd] at h; exact hk i pm h
  | some c =>
    rw [hd] at h
    dsimp only at h
    by_cases hf : f c
    · rw [if_pos hf] at h
      cases hk1 : k (i + 1) with
      | some pm2 =>
        rw [hk1] at h
        have hpm : pm2 = pm := by
          have : some pm2 = some pm := h
          exact Option.some.inj this
        subst hpm
        obtain ⟨h1, h2, h3, h4, h5⟩ := hk (i + 1) pm2 hk1
        refine ⟨by omega, h2, h3, ?_, h5⟩
        intro t ht1 ht2
        by_cases hti : t = i
        · subst hti
          intro c2 hc2
          rw [hd] at hc2
          have := Option.some.inj hc2
          subst this
          exact hnd _ hf
        · exact h4 t (by omega) ht2
      | none =>
        rw [hk1] at h
        simp only [Option.orElse] at h
        exact hk i pm h
    · rw [if_neg hf] at h
      exact hk i pm h

theorem kSafe_cap4_idM {cs : List Char} : KSafe cs (cap4 cs idM) := by
  intro gs pm h
  unfold cap4 at h
  cases hd : digitsEnd cs 4 gs with
  | none => rw [hd] at h; exact absurd h (by simp)
  | some ge =>
    rw [hd] at h
    have hpm : pm = ⟨gs, ge, ge⟩ := (Option.some.inj h).symm
    subst hpm
    obtain ⟨h1, h2⟩ := digitsEnd_spec hd
    refine ⟨Nat.le_refl gs, show ge = gs + 4 by omega, rfl, ?_, h2⟩
    intro t ht1 ht2
    have ht1b : gs ≤ t := ht1
    have ht2b : t < gs := ht2
    exact absurd ht2b (by omega)

theorem isWsChar_nodigit : ∀ c, isWsChar c = true → c.isDigit = false := by
  intro c h
  simp only [isWsChar, Bool.or_eq_true, decide_eq_true_eq] at h
  rcases h with ((((h | h) | h) | h) | h) | h <;> subst h <;> decide

theorem isColonDot_nodigit : ∀ c, isColonDot c = true → c.isDigit = false := by
  intro c h
  simp only [isColonDot, Bool.or_eq_true, decide_eq_true_eq] at h
  rcases h with h | h <;> subst h <;> decide

theorem isDotChar_nodigit : ∀ c, isDotChar c = true → c.isDigit = false := by
  intro c h
  simp only [isDotChar, decide_eq_true_eq] at h
  subst h
  decide

/-- Every match of the first high-confidence year pattern is `PrefixSafe`:
four captured digits preceded (from the scan position) only by non-digits,
with the match end equal to the capture end. -/
theorem yearHigh1At_safe {cs : List Char} {p : Nat} {pm : PMatch}
    (h : yearHigh1At cs p = some pm) : PrefixSafe cs p pm := by
  have k0 : KSafe cs (cap4 cs idM) := kSafe_cap4_idM
  have k1 := kSafe_classStarM isWsChar_nodigit k0
  have k2 := kSafe_classOptM isColonDot_nodigit k1
  have k3 := kSafe_classStarM isWsChar_nodigit k2
  have h2 : altM [seqsM [litM cs "rok", classPlusM cs isWsChar, litM cs "výroby"],
           seqsM [litM cs "r", classOptM cs isDotChar, classOptM cs isWsChar,
                  litM cs "v", classOptM cs isDotChar],
           litM cs "výroba",
           litM cs "vyrobeno"]
      (classStarM cs isWsChar (classOptM cs isColonDot
        (classStarM cs isWsChar (cap4 cs idM)))) p = some pm := h
  obtain ⟨q, hq, hqk⟩ := altM_spec h2
  simp only [List.mem_cons, List.not_mem_nil, or_false] at hq
  rcases hq with hq | hq | hq | hq <;> subst hq
  · exact kSafe_litM (by decide) (kSafe_classPlusM isWsChar_nodigit
      (kSafe_litM (by decide) k3)) p pm hqk
  · exact kSafe_litM (by decide) (kSafe_classOptM isDotChar_nodigit
      (kSafe_classOptM isWsChar_nodigit (kSafe_litM (by decide)
        (kSafe_classOptM isDotChar_nodigit k3)))) p pm hqk
  · exact kSafe_litM (by decide) k3 p pm hqk
  · exact kSafe_litM (by decide) k3 p pm hqk

/-- Scanning from any position at or before a `"rok výroby 2015"` site, the
`finditer` loop for the first high-confidence pattern reaches the site's
year capture: no earlier match can cover or jump the phrase, because the
pre-capture region of a match is digit-free and the capture is all digits. -/
theorem finditerGo_reaches_site {cs rest : List Char} {i0 : Nat}
    (hsite : cs.drop i0 = "rok výroby 2015".data ++ rest) :
    ∀ fuel p, cs.length + 2 ≤ p + fuel → p ≤ i0 →
      ∃ pm ∈ finditerGo (yearHigh1At cs) cs.length fuel p,
        pm.gstart = i0 + 11 ∧ pm.gend = i0 + 15 := by
  have hlen : i0 + 15 ≤ cs.length := by
    have h1 := congrArg List.length hsite
    rw [List.length_drop, List.length_append] at h1
    have h2 : ("rok výroby 2015".data).length = 15 := by decide
    omega
  have hchar : ∀ t, i0 ≤ t → t < i0 + 15 →
      cs[t]? = ("rok výroby 2015".data)[t - i0]? := by
    intro t h1 h2
    have h3 : t - i0 < ("rok výroby 2015".data).length := by
      have h4 : ("rok výroby 2015".data).length = 15 := by decide
      omega
    have hstep : cs[i0 + (t - i0)]? = ("rok výroby 2015".data)[t - i0]? := by
      rw [← List.getElem?_drop, hsite, List.getElem?_append_left h3]
    conv_lhs => rw [show t = i0 + (t - i0) by omega]
    exact hstep
  have hpre : ∀ k, k < 11 → ∃ c, ("rok výroby 2015".data)[k]? = some c ∧
      c.isDigit = false := by decide
  have h2d : cs[i0 + 11]? = some '2' := by
    rw [hchar (i0 + 11) (by omega) (by omega)]
    simp only [Nat.add_sub_cancel_left]
    decide
  intro fuel
  induction fuel with
  | zero =>
    intro p hf hp
    exfalso
    omega
  | succ fuel ih =>
    intro p hf hp
    simp only [finditerGo]
    rw [if_neg (show ¬ p > cs.length by omega)]
    cases hm : yearHigh1At cs p with
    | none =>
      have hpi : p ≠ i0 := by
        intro hc
        subst hc
        rw [yearHigh1At_at_site hsite] at hm
        cases hm
      obtain ⟨pm, hmem, hprop⟩ := ih (p + 1) (by omega) (by omega)
      exact ⟨pm, hmem, hprop⟩
    | some m =>
      have hsafe := yearHigh1At_safe hm
      obtain ⟨hs1, hs2, hs3, hs4, hs5⟩ := hsafe
      by_cases hgs : m.gstart = i0 + 11
      · refine ⟨m, List.mem_cons_self _ _, hgs, by omega⟩
      · have hpi : p < i0 := by
          rcases Nat.lt_or_ge p i0 with hlt | hge
          · exact hlt
          · exfalso
            have hpe : p = i0 := by omega
            subst hpe
            rw [yearHigh1At_at_site hsite] at hm
            have hmm := Option.some.inj hm
            apply hgs
            rw [← hmm]
        have hg1 : m.gstart ≤ i0 + 11 := by
          by_contra hc
          push_neg at hc
          have hnd := hs4 (i0 + 11) (by omega) (by omega)
          have := hnd '2' h2d
          exact absurd this (by decide)
        have hge : m.gend ≤ i0 := by
          by_contra hc
          push_neg at hc
          have hglt : m.gstart < i0 + 11 := by omega
          have htmem : m.gstart ≤ max m.gstart i0 ∧ i0 ≤ max m.gstart i0 ∧
              max m.gstart i0 < i0 + 11 ∧ max m.gstart i0 < m.gend := by
            refine ⟨Nat.le_max_left _ _, Nat.le_max_right _ _, ?_, ?_⟩ <;> omega
          obtain ⟨c, hcc, hcd⟩ := hs5 (max m.gstart i0) htmem.1 htmem.2.2.2
          obtain ⟨c2, hc2, hc2nd⟩ := hpre (max m.gstart i0 - i0) (by omega)
          rw [hchar (max m.gstart i0) htmem.2.1 (by omega), hc2] at hcc
          have := Option.some.inj hcc
          subst this
          rw [hcd] at hc2nd
          exact Bool.true_eq_false.mp hc2nd
        obtain ⟨pm, hmem, hprop⟩ := ih (max m.mend (p + 1)) (by omega) (by omega)
        exact ⟨pm, List.mem_cons_of_mem m hmem, hprop⟩

theorem kThru_litM (cs : List Char) (lit : String) : KThru (litM cs lit) := by
  intro k i pm h
  unfold litM at h
  cases hl : litCI cs lit.data i with
  | none => rw [hl] at h; exact absurd h (by simp)
  | some j => rw [hl] at h; exact ⟨j, h⟩

theorem kThru_classPlusM (cs : List Char) (f : Char → Bool) : KThru (classPlusM cs f) := by
  intro k i pm h
  unfold classPlusM at h
  obtain ⟨j, _, hk⟩ := firstSomeK_spec h
  exact ⟨j, hk⟩

theorem kThru_classStarM (cs : List Char) (f : Char → Bool) : KThru (classStarM cs f) := by
  intro k i pm h
  unfold classStarM at h
  obtain ⟨j, _, hk⟩ := firstSomeK_spec h
  exact ⟨j, hk⟩

theorem kThru_classOptM (cs : List Char) (f : Char → Bool) : KThru (classOptM cs f) := by
  intro k i pm h
  unfold classOptM at h
  cases hd : cs[i]? with
  | none => rw [hd] at h; exact ⟨i, h⟩
  | some c =>
    rw [hd] at h
    dsimp only at h
    by_cases hf : f c
    · rw [if_pos hf] at h
      cases hk1 : k (i + 1) with
      | some pm2 => rw [hk1] at h; exact ⟨i + 1, by rw [hk1]; exact h⟩
      | none =>
        rw [hk1] at h
        simp only [Option.orElse] at h
        exact ⟨i, h⟩
    · rw [if_neg hf] at h
      exact ⟨i, h⟩

theorem yearHigh2At_span {cs : List Char} {p : Nat} {pm : PMatch}
    (h : yearHigh2At cs p = some pm) : pm.gend = pm.gstart + 4 := by
  unfold yearHigh2At cap4 at h
  cases hd : digitsEnd cs 4 p with
  | none => rw [hd] at h; exact absurd h (by simp)
  | some ge =>
    rw [hd] at h
    have h2 : classStarM cs isWsChar
        (altM [seqsM [litM cs "rok", classPlusM cs isWsChar, litM cs "výroby"],
               seqsM [litM cs "r", classOptM cs isDotChar, classOptM cs isWsChar,
                      litM cs "v", classOptM cs isDotChar]]
          (fun me => some ⟨p, ge, me⟩)) ge = some pm := h
    obtain ⟨j1, hj1⟩ := kThru_classStarM cs isWsChar _ _ _ h2
    obtain ⟨q, hq, hqk⟩ := altM_spec hj1
    simp only [List.mem_cons, List.not_mem_nil, or_false] at hq
    have hend : ∃ j, (fun me => some (⟨p, ge, me⟩ : PMatch)) j = some pm := by
      rcases hq with hq | hq <;> subst hq
      · obtain ⟨j2, hj2⟩ := kThru_litM cs "rok" _ _ _ hqk
        obtain ⟨j3, hj3⟩ := kThru_classPlusM cs isWsChar _ _ _ hj2
        exact kThru_litM cs "výroby" _ _ _ hj3
      · obtain ⟨j2, hj2⟩ := kThru_litM cs "r" _ _ _ hqk
        obtain ⟨j3, hj3⟩ := kThru_classOptM cs isDotChar _ _ _ hj2
        obtain ⟨j4, hj4⟩ := kThru_classOptM cs isWsChar _ _ _ hj3
        obtain ⟨j5, hj5⟩ := kThru_litM cs "v" _ _ _ hj4
        exact kThru_classOptM cs isDotChar _ _ _ hj5
    obtain ⟨j, hj⟩ := hend
    have hpm : pm = ⟨p, ge, j⟩ := (Option.some.inj hj).symm
    subst hpm
    have := (digitsEnd_spec hd).1
    show ge = p + 4
    omega

theorem yearHigh3At_span {cs : List Char} {p : Nat} {pm : PMatch}
    (h : yearHigh3At cs p = some pm) : pm.gend = pm.gstart + 4 := by
  have h2 : litM cs "rč" (classOptM cs isDotChar (classStarM cs isWsChar (cap4 cs idM)))
      p = some pm := h
  obtain ⟨j1, hj1⟩ := kThru_litM cs "rč" _ _ _ h2
  obtain ⟨j2, hj2⟩ := kThru_classOptM cs isDotChar _ _ _ hj1
  obtain ⟨j3, hj3⟩ := kThru_classStarM cs isWsChar _ _ _ hj2
  exact (kSafe_cap4_idM j3 pm hj3).2.1

theorem mem_finditerGo {matchAt : Nat → Option PMatch} {len : Nat} :
    ∀ {fuel p : Nat} {pm : PMatch}, pm ∈ finditerGo matchAt len fuel p →
      ∃ q, matchAt q = some pm := by
  intro fuel
  induction fuel with
  | zero => intro p pm h; simp [finditerGo] at h
  | succ fuel ih =>
    intro p pm h
    simp only [finditerGo] at h
    by_cases hl : p > len
    · rw [if_pos hl] at h; simp at h
    · rw [if_neg hl] at h
      cases hm : matchAt p with
      | some m =>
        rw [hm] at h
        rcases List.mem_cons.mp h with h | h
        · subst h; exact ⟨p, hm⟩
        · exact ih h
      | none =>
        rw [hm] at h
        exact ih h

theorem strContains_drop {s sub : String} (h : strContains s sub = true) :
    ∃ i rest, s.data.drop i = sub.data ++ rest := by
  unfold strContains at h
  suffices hgen : ∀ l : List Char, containsAux sub.data l = true →
      ∃ i rest, l.drop i = sub.data ++ rest from hgen s.data h
  intro l
  induction l with
  | nil =>
    intro h2
    simp only [containsAux] at h2
    refine ⟨0, [], ?_⟩
    rw [List.isEmpty_iff] at h2
    simp [h2]
  | cons c restl ih =>
    intro h2
    simp only [containsAux, Bool.or_eq_true] at h2
    rcases h2 with h2 | h2
    · rw [ List.isPrefixOf_iff_prefix] at h2
      obtain ⟨t, ht⟩ := h2
      exact ⟨0, t, by simpa using ht.symm⟩
    · obtain ⟨i, rest, hrest⟩ := ih h2
      exact ⟨i + 1, rest, by simpa using hrest⟩

theorem slice_2015 {cs rest : List Char} {i0 : Nat}
    (hsite : cs.drop i0 = "rok výroby 2015".data ++ rest) :
    sliceStr cs (i0 + 11) (i0 + 15) = "2015" := by
  unfold sliceStr
  have hd : cs.drop (i0 + 11) = "2015".data ++ rest := by
    calc cs.drop (i0 + 11) = (cs.drop i0).drop 11 := by rw [List.drop_drop]
    _ = ("rok výroby 2015".data ++ rest).drop 11 := by rw [hsite]
    _ = "2015".data ++ rest := rfl
  rw [hd, show i0 + 15 - (i0 + 11) = 4 by omega,
      List.take_left' (show ("2015".data).length = 4 by decide)]

theorem finditer_has_site {cs rest : List Char} {i0 : Nat}
    (hsite : cs.drop i0 = "rok výroby 2015".data ++ rest) :
    ∃ pm ∈ finditer (yearHigh1At cs) cs.length,
      pm.gstart = i0 + 11 ∧ pm.gend = i0 + 15 :=
  finditerGo_reaches_site hsite (cs.length + 2) 0 (by omega) (Nat.zero_le i0)

theorem highYearCands_site {cs rest : List Char} {i0 : Nat}
    (hsite : cs.drop i0 = "rok výroby 2015".data ++ rest)
    (hexcl : "2015" ∉ excludedYears cs) :
    ∃ m ∈ highYearCands cs, m.start = i0 + 11 ∧ m.text = "2015" := by
  obtain ⟨pm, hmem, hg1, hg2⟩ := finditer_has_site hsite
  refine ⟨{ text := "2015", value := digitsToNat "2015".data, start := i0 + 11,
            stop := i0 + 15, confidence := .high,
            pattern_type := "production_year_context" }, ?_, rfl, rfl⟩
  unfold highYearCands yearTierCandidates
  apply List.mem_flatMap.mpr
  refine ⟨yearHigh1At cs, by simp, ?_⟩
  apply List.mem_filterMap.mpr
  refine ⟨pm, hmem, ?_⟩
  dsimp only
  rw [hg1, hg2, slice_2015 hsite]
  rw [if_pos ⟨hexcl, by decide, by decide⟩]

theorem highYearCands_shape {cs : List Char} {m : RMatch} (h : m ∈ highYearCands cs) :
    m.stop = m.start + 4 ∧ m.text = sliceStr cs m.start m.stop := by
  unfold highYearCands yearTierCandidates at h
  rcases List.mem_flatMap.mp h with ⟨p, hp, hm⟩
  rcases List.mem_filterMap.mp hm with ⟨pm, hpm, hf⟩
  have hspan : pm.gend = pm.gstart + 4 := by
    obtain ⟨q, hq⟩ := mem_finditerGo hpm
    simp only [List.mem_cons, List.not_mem_nil, or_false] at hp
    rcases hp with hp | hp | hp <;> subst hp
    · exact (yearHigh1At_safe hq).2.1
    · exact yearHigh2At_span hq
    · exact yearHigh3At_span hq
  dsimp only at hf
  split at hf
  · have := Option.some.inj hf
    subst this
    exact ⟨hspan, rfl⟩
  · exact absurd hf (by simp)

/-- When the text contains `"rok výroby 2015"` and `"2015"` is not among the
exclusion captures, `find_years` returns a high-confidence `"2015"` match. -/
theorem findYears_site_2015 {text : String}
    (hcontains : strContains text "rok výroby 2015" = true)
    (hexcl : "2015" ∉ excludedYears text.data) :
    ∃ m ∈ findYears text, m.text = "2015" ∧ m.value = 2015 ∧ m.confidence = .high := by
  obtain ⟨i0, rest, hsite⟩ := strContains_drop hcontains
  obtain ⟨m0, hm0, hms, hmt⟩ := highYearCands_site hsite hexcl
  have hne : highYearCands text.data ≠ [] := by
    intro hc
    rw [hc] at hm0
    exact absurd hm0 (List.not_mem_nil m0)
  have hA : (highYearCands text.data).isEmpty = false := by
    cases hl : highYearCands text.data with
    | nil => exact absurd hl hne
    | cons a l => rfl
  have hfy : findYears text = deduplicateMatches (highYearCands text.data) := by
    show deduplicateMatches _ = _
    congr 1
    simp [hA]
  have hsmem : m0.start ∈ firstOccStarts (highYearCands text.data) :=
    (mem_firstOccStarts _ _).mpr (List.mem_map.mpr ⟨m0, hm0, rfl⟩)
  obtain ⟨x, r, hxr⟩ : ∃ x r,
      (highYearCands text.data).filter (fun m => m.start = m0.start) = x :: r := by
    cases hfl : (highYearCands text.data).filter (fun m => m.start = m0.start) with
    | nil =>
      exact absurd hfl (filter_start_ne_nil _ _ (List.mem_map.mpr ⟨m0, hm0, rfl⟩))
    | cons x r => exact ⟨x, r, rfl⟩
  have hbmem : bestOf x r ∈ deduplicateMatches (highYearCands text.data) := by
    rw [deduplicateMatches_eq_filterStarts]
    apply (sortByStart_perm _).mem_iff.mpr
    apply List.mem_filterMap.mpr
    exact ⟨m0.start, hsmem, by rw [hxr]⟩
  have hbfil : bestOf x r ∈ (highYearCands text.data).filter (fun m => m.start = m0.start) := by
    rw [hxr]
    exact bestOf_mem x r
  have hbhigh : bestOf x r ∈ highYearCands text.data := (List.mem_filter.mp hbfil).1
  have hbstart : (bestOf x r).start = m0.start := by
    have := (List.mem_filter.mp hbfil).2
    simpa using this
  obtain ⟨hshape1, hshape2⟩ := highYearCands_shape hbhigh
  have htext : (bestOf x r).text = "2015" := by
    rw [hshape2, hshape1, hbstart, hms]
    exact slice_2015 hsite
  refine ⟨bestOf x r, by rw [hfy]; exact hbmem, htext, ?_, highYearCands_conf hbhigh⟩
  have hv : (bestOf x r).value = digitsToNat (bestOf x r).text.data := by
    have hbh2 := hbhigh
    unfold highYearCands at hbh2
    exact (yearTierCandidates_spec hbh2).2.2.2.2
  rw [hv, htext]
  decide

/-- C6 (amended): for every text containing both phrases, `find_years` never
returns a match with text `"2027"` — every candidate must satisfy the
validity range `1990 ≤ int(year) ≤ 2026`, which 2027 fails (and `"2027"` is
additionally captured by the STK exclusion pattern).  For every text
containing `"rok výroby 2015"` whose exclusion captures do not include
`"2015"`, a high-confidence `"2015"` match is returned; on the plain text
`"rok výroby 2015, STK do 2027"` exactly the match `"2015"` is returned.
The `"2015"` match is however suppressed when the text also matches an
exclusion pattern for 2015, as the counterexample shows. -/
theorem find_years_never_returns_2027 :
    (∀ text : String, strContains text "rok výroby 2015" = true →
        strContains text "STK do 2027" = true →
        ∀ m ∈ findYears text, m.text ≠ "2027") ∧
    (∀ text : String, strContains text "rok výroby 2015" = true →
        "2015" ∉ excludedYears text.data →
        ∃ m ∈ findYears text, m.text = "2015" ∧ m.value = 2015 ∧
          m.confidence = .high) ∧
    findYears "rok výroby 2015, STK do 2027" =
      [{ text := "2015", value := 2015, start := 11, stop := 15,
         confidence := .high, pattern_type := "production_year_context" }] := by
  refine ⟨?_, ?_, by decide⟩
  · intro text _ _ m hm hcontra
    have hbounds : m.value ≤ 2026 ∧ m.value = digitsToNat m.text.data := by
      rcases findYears_cases text m hm with h | h | h
      · exact ⟨(yearTierCandidates_spec h).2.2.2.1, (yearTierCandidates_spec h).2.2.2.2⟩
      · exact ⟨(yearTierCandidates_spec h).2.2.2.1, (yearTierCandidates_spec h).2.2.2.2⟩
      · exact ⟨(yearTierCandidates_spec h).2.2.2.1, (yearTierCandidates_spec h).2.2.2.2⟩
    have h2027 : m.value = 2027 := by
      rw [hbounds.2, hcontra]
      decide
    omega
  · intro text hcont hexcl
    exact findYears_site_2015 hcont hexcl

/-- Witness for the two universally quantified parts of the amended C6
theorem, at concrete texts containing the phrases. -/
theorem find_years_never_returns_2027_witness :
    (strContains "rok výroby 2015, STK do 2027" "rok výroby 2015" = true ∧
     strContains "rok výroby 2015, STK do 2027" "STK do 2027" = true ∧
     ∀ m ∈ findYears "rok výroby 2015, STK do 2027", m.text ≠ "2027") ∧
    (strContains "rok výroby 2015" "rok výroby 2015" = true ∧
     "2015" ∉ excludedYears "rok výroby 2015".data ∧
     ∃ m ∈ findYears "rok výroby 2015", m.text = "2015" ∧ m.value = 2015 ∧
       m.confidence = .high) :=
  ⟨⟨by decide, by decide,
    find_years_never_returns_2027.1 "rok výroby 2015, STK do 2027" (by decide) (by decide)⟩,
   ⟨by decide, by decide,
    find_years_never_returns_2027.2.1 "rok výroby 2015" (by decide) (by decide)⟩⟩

/-- C5: the tiered search is a strict fallback chain.  For years: when the
HIGH tier yields at least one non-excluded, range-valid candidate, the result
is exactly the deduplicated HIGH candidates and every returned match has
confidence `high`; the MEDIUM tier is used only when HIGH is empty, and LOW
only when both are empty.  For mileage (embedded over its per-tier scan
results): the same two-tier chain. -/
theorem tiered_search_strict_fallback :
    (∀ text : String,
      (highYearCands text.data ≠ [] →
        findYears text = deduplicateMatches (highYearCands text.data) ∧
        ∀ m ∈ findYears text, m.confidence = .high) ∧
      (highYearCands text.data = [] → medYearCands text.data ≠ [] →
        findYears text = deduplicateMatches (medYearCands text.data) ∧
        ∀ m ∈ findYears text, m.confidence = .medium) ∧
      (highYearCands text.data = [] → medYearCands text.data = [] →
        findYears text = deduplicateMatches (lowYearCands text.data) ∧
        ∀ m ∈ findYears text, m.confidence = .low)) ∧
    (∀ (excl : List Nat) (highScan medScan : List MScanItem),
      (mileageCandidatesOf excl highScan .high "mileage_context" ≠ [] →
        findMileageFrom excl highScan medScan =
          deduplicateMatches (mileageCandidatesOf excl highScan .high "mileage_context") ∧
        ∀ m ∈ findMileageFrom excl highScan medScan, m.confidence = .high) ∧
      (mileageCandidatesOf excl highScan .high "mileage_context" = [] →
        findMileageFrom excl highScan medScan =
          deduplicateMatches (mileageCandidatesOf excl medScan .medium "standard") ∧
        ∀ m ∈ findMileageFrom excl highScan medScan, m.confidence = .medium)) := by
  constructor
  · intro text
    refine ⟨fun h => ?_, fun h1 h2 => ?_, fun h1 h2 => ?_⟩
    · have hA : (highYearCands text.data).isEmpty = false := by
        cases hl : highYearCands text.data with
        | nil => exact absurd hl h
        | cons a l => rfl
      have hfy : findYears text = deduplicateMatches (highYearCands text.data) := by
        show deduplicateMatches _ = _
        congr 1
        simp [hA]
      refine ⟨hfy, fun m hm => ?_⟩
      rw [hfy] at hm
      exact highYearCands_conf (mem_of_mem_deduplicate hm)
    · have hB : (medYearCands text.data).isEmpty = false := by
        cases hl : medYearCands text.data with
        | nil => exact absurd hl h2
        | cons a l => rfl
      have hfy : findYears text = deduplicateMatches (medYearCands text.data) := by
        show deduplicateMatches _ = _
        congr 1
        simp [h1, hB]
      refine ⟨hfy, fun m hm => ?_⟩
      rw [hfy] at hm
      exact medYearCands_conf (mem_of_mem_deduplicate hm)
    · have hfy : findYears text = deduplicateMatches (lowYearCands text.data) := by
        show deduplicateMatches _ = _
        congr 1
        simp [h1, h2]
      refine ⟨hfy, fun m hm => ?_⟩
      rw [hfy] at hm
      exact lowYearCands_conf (mem_of_mem_deduplicate hm)
  · intro excl highScan medScan
    refine ⟨fun h => ?_, fun h => ?_⟩
    · have hA : (mileageCandidatesOf excl highScan .high "mileage_context").isEmpty = false := by
        cases hl : mileageCandidatesOf excl highScan .high "mileage_context" with
        | nil => exact absurd hl h
        | cons a l => rfl
      have hfm : findMileageFrom excl highScan medScan =
          deduplicateMatches (mileageCandidatesOf excl highScan .high "mileage_context") := by
        show deduplicateMatches _ = _
        congr 1
        simp [hA]
      refine ⟨hfm, fun m hm => ?_⟩
      rw [hfm] at hm
      exact mileageCandidatesOf_spec (mem_of_mem_deduplicate hm)
    · have hfm : findMileageFrom excl highScan medScan =
          deduplicateMatches (mileageCandidatesOf excl medScan .medium "standard") := by
        show deduplicateMatches _ = _
        congr 1
        simp [h]
      refine ⟨hfm, fun m hm => ?_⟩
      rw [hfm] at hm
      exact mileageCandidatesOf_spec (mem_of_mem_deduplicate hm)

/-- Witness for C5: a text whose HIGH year tier fires, and a mileage scan
whose HIGH tier fires. -/
theorem tiered_search_strict_fallback_witness :
    highYearCands "rok výroby 2015".data ≠ [] ∧
    findYears "rok výroby 2015" = deduplicateMatches (highYearCands "rok výroby 2015".data) ∧
    mileageCandidatesOf [] [⟨"150000 km", "150000", 7, 16⟩] .high "mileage_context" ≠ [] ∧
    findMileageFrom [] [⟨"150000 km", "150000", 7, 16⟩] [] =
      deduplicateMatches
        (mileageCandidatesOf [] [⟨"150000 km", "150000", 7, 16⟩] .high "mileage_context") := by
  refine ⟨by decide, ?_, by decide, ?_⟩
  · exact ((tiered_search_strict_fallback.1 "rok výroby 2015").1 (by decide)).1
  · exact ((tiered_search_strict_fallback.2 [] [⟨"150000 km", "150000", 7, 16⟩] []).1 (by decide)).1

theorem stdCat_agree_iff (a b : Option String) :
    stdCat a b = .agree ↔ (a ≠ none ∧ a = b) := by
  cases a with
  | none => cases b <;> simp [stdCat]
  | some x =>
    cases b with
    | none => simp [stdCat]
    | some y => by_cases h : x = y <;> simp [stdCat, h]

theorem levelOf_full_iff (n : Nat) :
    (if n = 4 then AgreementLevel.full else if 2 ≤ n then .partly else .noneLevel) = .full ↔
      n = 4 := by
  split_ifs with h4 h2 <;> simp_all

theorem levelOf_partly_iff (n : Nat) :
    (if n = 4 then AgreementLevel.full else if 2 ≤ n then .partly else .noneLevel) = .partly ↔
      (2 ≤ n ∧ n ≠ 4) := by
  split_ifs with h4 h2 <;> simp_all

theorem levelOf_none_iff (n : Nat) :
    (if n = 4 then AgreementLevel.full else if 2 ≤ n then .partly else .noneLevel) = .noneLevel ↔
      n < 2 := by
  split_ifs with h4 h2 <;> simp_all

/-- C7 counterexample: the year field's disagreement classification is
MINOR_FORMATTING (one source present), yet `_compare_results` does not count
year as agreeing — it lands in `ml_only` — so the listing gets
`agreement_level = partial` although all four classifications are NONE or
MINOR_FORMATTING. -/
theorem compare_results_one_sided_counterexample :
    specDisagreementTable c7ml.year c7rx.year = .MINOR_FORMATTING ∧
    CarField.year ∉ (compareResults c7ml c7rx c7pres c7mres).agreements ∧
    CarField.year ∈ (compareResults c7ml c7rx c7pres c7mres).ml_only ∧
    (compareResults c7ml c7rx c7pres c7mres).agreement_level = .partly := by
  refine ⟨by decide, by decide, by decide, by decide⟩

/-- C7 (amended): in `_compare_results`, mileage and power count as agreeing
exactly when their resolver classification is not MAJOR (NONE or
MINOR_FORMATTING, including one-sided and both-absent); year and fuel count
as agreeing exactly when both raw values are present and equal (one-sided
and both-absent cases do not count); and the agreement level is full iff all
4 fields agree, partial iff at least 2 but not all 4 agree, and none
otherwise. -/
theorem compare_results_agreement_rule (ml rx : FieldMap) (pres mres : MileageResolution) :
    (CarField.mileage ∈ (compareResults ml rx pres mres).agreements ↔
        mres.disagreement_type ≠ .MAJOR) ∧
    (CarField.power ∈ (compareResults ml rx pres mres).agreements ↔
        pres.disagreement_type ≠ .MAJOR) ∧
    (CarField.year ∈ (compareResults ml rx pres mres).agreements ↔
        (ml.year ≠ none ∧ ml.year = rx.year)) ∧
    (CarField.fuel ∈ (compareResults ml rx pres mres).agreements ↔
        (ml.fuel ≠ none ∧ ml.fuel = rx.fuel)) ∧
    ((compareResults ml rx pres mres).agreement_level = .full ↔
        (compareResults ml rx pres mres).agreements.length = 4) ∧
    ((compareResults ml rx pres mres).agreement_level = .partly ↔
        (2 ≤ (compareResults ml rx pres mres).agreements.length ∧
          (compareResults ml rx pres mres).agreements.length ≠ 4)) ∧
    ((compareResults ml rx pres mres).agreement_level = .noneLevel ↔
        (compareResults ml rx pres mres).agreements.length < 2) := by
  have hlvl : (compareResults ml rx pres mres).agreement_level =
      (if (compareResults ml rx pres mres).agreements.length = 4 then .full
       else if 2 ≤ (compareResults ml rx pres mres).agreements.length then .partly
       else .noneLevel) := rfl
  refine ⟨?_, ?_, ?_, ?_, ?_, ?_, ?_⟩
  · by_cases hm : mres.disagreement_type = .MAJOR <;>
      simp [compareResults, hm, List.mem_append]
  · by_cases hp : pres.disagreement_type = .MAJOR <;>
      simp [compareResults, hp, List.mem_append]
  · rw [← stdCat_agree_iff]
    by_cases hy : stdCat ml.year rx.year = .agree <;>
      simp [compareResults, hy, List.mem_append]
  · rw [← stdCat_agree_iff]
    by_cases hf : stdCat ml.fuel rx.fuel = .agree <;>
      simp [compareResults, hf, List.mem_append]
  · rw [hlvl]
    exact levelOf_full_iff _
  · rw [hlvl]
    exact levelOf_partly_iff _
  · rw [hlvl]
    exact levelOf_none_iff _

/-- C8 counterexample: when the learned-model call raises, `extract` returns
the propagated exception, not a resolved record — there is no handler around
`self.ml_extractor.extract(text)`. -/
theorem extract_propagates_exception_counterexample :
    (extractStep "Škoda Octavia 2015, najeto 150000 km"
        (.error "model load failure") ⟨none, none, none, none⟩
        (some "c8") "2024-01-01T00:00:00" initialState).1 =
      .error "model load failure" := rfl

/-- C8 (amended): an exception from the learned-model call propagates out of
`extract` unchanged; no all-`None` fallback record is produced, and the only
state change already performed is the `total_extractions` increment (which
precedes the model call in the source). -/
theorem extract_propagates_model_exception (text e : String) (rx : FieldMap)
    (carId : Option String) (now : String) (st : ExtractorState) :
    (extractStep text (.error e) rx carId now st).1 = .error e ∧
    (extractStep text (.error e) rx carId now st).2 =
      { st with stats :=
        { st.stats with total_extractions := st.stats.total_extractions + 1 } } :=
  ⟨rfl, rfl⟩

/-- C9 counterexample: processing the same listing (same `car_id`) twice
appends two review-queue entries with the same external identifier — queue
writes are not idempotent per listing. -/
theorem review_queue_duplicate_counterexample :
    ((extractStep "inzerát" (.ok c9ml) c9rx (some "car42") "t2"
        (extractStep "inzerát" (.ok c9ml) c9rx (some "car42") "t1" initialState).2).2.review_queue.map
      (fun e => e.car_id)) = [some "car42", some "car42"] := by decide

/-- C9 (amended): queue routing appends unconditionally — each `extract`
call appends exactly one review entry when the agreement level is none and
exactly one auto-training entry when it is full, regardless of whether the
queue already holds an entry for the same `car_id`; re-processing a listing
therefore duplicates queue entries (separate offline scripts exist for
deduplication). -/
theorem queue_routing_appends_per_call (text : String) (mlRaw rx : FieldMap)
    (carId : Option String) (now : String) (st : ExtractorState) :
    (extractStep text (.ok mlRaw) rx carId now st).2.review_queue =
      st.review_queue ++
        (if (extractComparison mlRaw rx).agreement_level = .noneLevel
         then [mkReviewEntry text mlRaw rx carId (extractComparison mlRaw rx) now]
         else []) ∧
    (extractStep text (.ok mlRaw) rx carId now st).2.auto_training_queue =
      st.auto_training_queue ++
        (if (extractComparison mlRaw rx).agreement_level = .full
         then [mkAutoEntry text (extractFinalRaw mlRaw rx) carId now]
         else []) := by
  unfold extractStep
  cases hl : (extractComparison mlRaw rx).agreement_level <;>
    simp [extractComparison, extractFinalRaw, updateFieldStats] at hl ⊢ <;>
    rw [hl] <;> simp
